import Mathlib

/-!
Verification of the fieldnet repository core against its specification.

Shallow embedding notes:
* Python floats are modelled as rationals; machine rounding is not modelled.
* The concurrent command handler of src/demos/ws_motor_sim.py is modelled as a
  state machine on the shared control tuple; each command application is one
  atomic transition, matching the single critical section used by the code.
* The schedule compiler of src/scripts/scenario_runner_v0.py is modelled twice:
  a typed model (well-typed field values, absence via Option) used for the
  functional claims, and a dynamic model over Python-like values including the
  exceptions Python raises on ill-typed data, used for the totality claim.
-/

namespace Fieldnet

/-! ### ws_motor_sim.py, helpers (lines 25-39) -/

/-- Source clamp (ws_motor_sim.py line 25). -/
def clamp (x lo hi : ℚ) : ℚ := if x < lo then lo else if x > hi then hi else x

/-- Source lerp (ws_motor_sim.py line 29). -/
def lerp (a b t : ℚ) : ℚ := a + (b - a) * t

/-- Source color_from_state (ws_motor_sim.py lines 33-39). -/
def color_from_state (state : String) (confidence : ℚ) : String :=
  if state = "OK" ∧ confidence ≥ 3/4 then "green"
  else if state = "SUSPECT" ∨ state = "IMBALANCE" ∨ confidence < 3/4 then "yellow"
  else "red"

/-! ### MotorSim.step, classifier tail (ws_motor_sim.py lines 146-178)

The stochastic signal generation (random noise, sine phase) produces the
feature proxies rms and rough; the classifier below is the deterministic part
of MotorSim.step, taken as a function of the truth state, the two feature
proxies and the fault level. -/

structure StepResult where
  truth : String
  pred : String
  state : String
  confidence : ℚ
  anomaly : ℚ

/-- Deterministic tail of MotorSim.step (ws_motor_sim.py lines 146-178). -/
def classifierOutput (truth : String) (rms rough fault_level : ℚ) : StepResult :=
  let pc : String × ℚ :=
    if truth = "STALL" ∨ rms < 7/20 then ("STALL", 17/20)
    else if rms > 5/4 ∧ rough < 7/20 then ("IMBALANCE", 4/5)
    else if rough > 2/5 then ("BEARING_WEAR", 3/4)
    else ("OK", 9/10)
  let anomaly := clamp (3/20 + 9/10 * rough + 3/5 * fault_level) 0 1
  let confidence := clamp (pc.2 * (1 - 3/4 * fault_level) * (1 - 11/20 * anomaly)) 0 1
  let state :=
    if confidence < 11/20 ∧ (pc.1 = "OK" ∨ pc.1 = "IMBALANCE" ∨ pc.1 = "BEARING_WEAR")
    then "SUSPECT" else pc.1
  ⟨truth, pc.1, state, confidence, anomaly⟩

/-! ### Shared command state and on_message (ws_motor_sim.py lines 192-273) -/

structure ControlState where
  fault_level : ℚ
  fault_mode : String
  run_mode : String
  step_remaining : ℤ
  tick_hz : ℚ

/-- Initial shared state (ws_motor_sim.py lines 193-198). -/
def initialState : ControlState :=
  { fault_level := 0, fault_mode := "bitflip", run_mode := "pause",
    step_remaining := 0, tick_hz := 5 }

/-- A received command message; absent fields are None, mirroring dict.get. -/
structure CmdMsg where
  type : Option String
  cmd : Option String
  target : Option String
  n : Option ℤ
  hz : Option ℚ
  level : Option ℚ
  mode : Option String
  seconds : Option ℚ

/-- Number of ramp increments: int(seconds / 0.2) (ws_motor_sim.py line 264). -/
def rampSteps (seconds : ℚ) : ℕ := (Int.floor (seconds / (1/5))).toNat

/-- The values written by the ramp loop, in order: lerp(start, target, (i+1)/steps)
for i in range(steps) (ws_motor_sim.py lines 265-269). -/
def rampLevels (start target : ℚ) (steps : ℕ) : List ℚ :=
  (List.range steps).map (fun i : ℕ => lerp start target (((i : ℚ) + 1) / (steps : ℚ)))

/-- The command handler on_message (ws_motor_sim.py lines 202-273), restricted to
its effect on the shared control tuple.  The fault.ramp command is modelled by
its final write (the last element of rampLevels); when zero increments occur the
level is left unchanged. -/
def on_message (node_id : String) (s : ControlState) (msg : CmdMsg) : ControlState :=
  if msg.type ≠ some "field.command" then s
  else
    let motor_id := "motor01"
    let source := node_id ++ "." ++ motor_id
    if ¬ (msg.target = none ∨ msg.target = some motor_id ∨ msg.target = some source) then s
    else if msg.cmd = some "sim.pause" then { s with run_mode := "pause" }
    else if msg.cmd = some "sim.run" then { s with run_mode := "run" }
    else if msg.cmd = some "sim.step" then
      let n := max 1 (min (msg.n.getD 1) 10000)
      { s with run_mode := "pause", step_remaining := s.step_remaining + n }
    else if msg.cmd = some "sim.rate" then
      let hz := max (1/5) (min (msg.hz.getD 5) 200)
      { s with tick_hz := hz }
    else if msg.cmd = some "fault.set" then
      let level := msg.level.getD 0
      let mode := msg.mode.getD "bitflip"
      { s with fault_level := clamp level 0 1, fault_mode := mode }
    else if msg.cmd = some "fault.ramp" then
      let target := clamp (msg.level.getD 0) 0 1
      let seconds := max (1/10) (msg.seconds.getD 5)
      let steps := rampSteps seconds
      { s with fault_level := ((rampLevels s.fault_level target steps).getLast?).getD s.fault_level }
    else s

/-- Message constructors used in the scenario claims. -/
def faultSetMsg (level : Option ℚ) (mode : Option String) : CmdMsg :=
  { type := some "field.command", cmd := some "fault.set", target := none,
    n := none, hz := none, level := level, mode := mode, seconds := none }

def faultRampMsg (level seconds : ℚ) : CmdMsg :=
  { type := some "field.command", cmd := some "fault.ramp", target := none,
    n := none, hz := none, level := some level, mode := none, seconds := some seconds }

def simStepMsg (n : ℤ) : CmdMsg :=
  { type := some "field.command", cmd := some "sim.step", target := none,
    n := some n, hz := none, level := none, mode := none, seconds := none }

def simRateMsg (hz : ℚ) : CmdMsg :=
  { type := some "field.command", cmd := some "sim.rate", target := none,
    n := none, hz := some hz, level := none, mode := none, seconds := none }

/-- Documented clamp ranges of the numeric control fields (spec section 3). -/
def ControlInv (s : ControlState) : Prop :=
  0 ≤ s.fault_level ∧ s.fault_level ≤ 1 ∧
  1/5 ≤ s.tick_hz ∧ s.tick_hz ≤ 200 ∧
  0 ≤ s.step_remaining

/-! ### scenario_runner_v0.py, typed model of the schedule compiler
(lines 103-163).  Fields that the code reads with dict.get are Option valued;
list-valued fields use the empty list for absence, which the code cannot
distinguish from a present empty list. -/

structure Effect where
  kind : Option String
  bundle : List (String × ℚ)

structure FluxRule where
  process : Option String
  effect : Option Effect

structure SEvent where
  action : Option String
  at' : Option ℚ
  duration_s : Option ℚ
  bundle : List (String × ℚ)

structure Segment where
  name : Option String
  t0 : Option ℚ
  t1 : Option ℚ
  marks : List String
  flux : List FluxRule
  events : List SEvent

structure FaultsCfg where
  segments : List Segment

structure CompileResult where
  t : ℚ
  active_segments : List (Option String)
  marks : List String
  fault_bundle : List (String × ℚ)

/-- The loop condition of segment_at_time: both bounds present and t0 <= t < t1. -/
def segCovers (t : ℚ) (seg : Segment) : Bool :=
  match seg.t0, seg.t1 with
  | some a, some b => decide (a ≤ t) && decide (t < b)
  | _, _ => false

/-- Source segment_at_time (scenario_runner_v0.py lines 103-111): first segment,
in schedule order, with both bounds present and t0 <= t < t1. -/
def segment_at_time (cfg : FaultsCfg) (t : ℚ) : Option Segment :=
  cfg.segments.find? (segCovers t)

/-- One update bundle[k] = bundle.get(k, 0.0) + v; a Python dict keeps the
position of an existing key and appends a new key at the end. -/
def bundleAdd : List (String × ℚ) → String → ℚ → List (String × ℚ)
  | [], k, v => [(k, v)]
  | (k0, v0) :: rest, k, v =>
    if k0 = k then (k0, v0 + v) :: rest else (k0, v0) :: bundleAdd rest k v

/-- The inner loop adding every (k, v) of a bundle dict into the output. -/
def bundleExtend (b : List (String × ℚ)) (kvs : List (String × ℚ)) : List (String × ℚ) :=
  kvs.foldl (fun acc kv => bundleAdd acc kv.1 kv.2) b

/-- Body of the flux loop (scenario_runner_v0.py lines 137-144). -/
def fluxStep (b : List (String × ℚ)) (fx : FluxRule) : List (String × ℚ) :=
  if fx.process = some "level" then
    let eff := fx.effect.getD ⟨none, []⟩
    if eff.kind = some "continuous" then bundleExtend b eff.bundle else b
  else b

/-- Body of the event loop (scenario_runner_v0.py lines 147-156): skip unless
action == "apply"; duration_s defaults to 0; a missing at skips the event;
otherwise the event is active iff at <= t < at + duration_s. -/
def eventStep (t : ℚ) (b : List (String × ℚ)) (ev : SEvent) : List (String × ℚ) :=
  if ev.action = some "apply" then
    match ev.at' with
    | none => b
    | some a =>
      let dur := ev.duration_s.getD 0
      if a ≤ t ∧ t < a + dur then bundleExtend b ev.bundle else b
  else b

/-- Source compile_fault_bundle_at_time (scenario_runner_v0.py lines 114-163). -/
def compile_fault_bundle_at_time (cfg : FaultsCfg) (t : ℚ) : CompileResult :=
  match segment_at_time cfg t with
  | none => ⟨t, [], [], []⟩
  | some seg =>
    let b1 := seg.flux.foldl fluxStep []
    let b2 := seg.events.foldl (eventStep t) b1
    ⟨t, [seg.name], seg.marks, b2⟩

/-! Specification-side definitions for claim C1, written from the words of the
spec to be compared with the compiled output. -/

/-- Value of a key in the output bundle dict (0 when absent). -/
def bundleLookup (b : List (String × ℚ)) (k : String) : ℚ :=
  match b.find? (fun kv => kv.1 = k) with
  | some kv => kv.2
  | none => 0

/-- Sum of the values carried by a key in a list of contributions. -/
def keySum (kvs : List (String × ℚ)) (k : String) : ℚ :=
  ((kvs.filter (fun kv => kv.1 = k)).map Prod.snd).sum

/-- Spec: the summed contribution of the flux rules of a segment with
process == "level" and effect.kind == "continuous", at a key. -/
def specFluxContrib (seg : Segment) (k : String) : ℚ :=
  (seg.flux.map (fun fx =>
    if fx.process = some "level" ∧ (fx.effect.getD ⟨none, []⟩).kind = some "continuous"
    then keySum (fx.effect.getD ⟨none, []⟩).bundle k else 0)).sum

/-- Spec: the summed contribution of the events of a segment with
action == "apply" that are active at t (at <= t < at + duration_s), at a key. -/
def specEventContrib (seg : Segment) (t : ℚ) (k : String) : ℚ :=
  (seg.events.map (fun ev =>
    match ev.at' with
    | none => 0
    | some a =>
      if ev.action = some "apply" ∧ a ≤ t ∧ t < a + ev.duration_s.getD 0
      then keySum ev.bundle k else 0)).sum

/-! ### scenario_runner_v0.py, dynamic model of the schedule compiler

This second model runs the same code over Python-like values and records the
exceptions Python raises on ill-typed data: AttributeError when .get or .items
is called on a non-dict, TypeError on comparisons and additions of incompatible
values and on float() of a non-number, ValueError on float() of a non-numeric
string.  It is used for the totality claim C2. -/

inductive PyVal where
  | pynone
  | pybool (b : Bool)
  | pynum (q : ℚ)
  | pystr (s : String)
  | pylist (l : List PyVal)
  | pydict (l : List (String × PyVal))

/-- Equality test against a string literal (the only equality on dynamic
values the compiled code performs). -/
def isPyStr : PyVal → String → Bool
  | .pystr s, x => s = x
  | _, _ => false

/-- The is None test. -/
def isNoneV : PyVal → Bool
  | .pynone => true
  | _ => false

inductive PyErr where
  | typeError
  | valueError
  | attributeError
deriving DecidableEq

/-- Python dict.get(k, dflt); on any non-dict value .get raises AttributeError. -/
def pyGet (v : PyVal) (k : String) (dflt : PyVal) : Except PyErr PyVal :=
  match v with
  | .pydict l =>
    .ok (match l.find? (fun kv => kv.1 = k) with
         | some kv => kv.2
         | none => dflt)
  | _ => .error .attributeError

/-- Python iteration (for x in v): lists yield elements, strings yield their
characters, dicts yield their keys; other values raise TypeError. -/
def pyIter : PyVal → Except PyErr (List PyVal)
  | .pylist l => .ok l
  | .pystr s => .ok (s.data.map (fun c => .pystr c.toString))
  | .pydict l => .ok (l.map (fun kv => .pystr kv.1))
  | _ => .error .typeError

/-- Python dict.items(); raises AttributeError on non-dicts. -/
def pyItems : PyVal → Except PyErr (List (String × PyVal))
  | .pydict l => .ok l
  | _ => .error .attributeError

/-- Numeric reading of a value: Python treats bool as the integers 0 and 1. -/
def pyNumVal : PyVal → Option ℚ
  | .pynum q => some q
  | .pybool b => some (if b then 1 else 0)
  | _ => none

/-- Comparison v <= t against the float query time. -/
def pyLeF (a : PyVal) (t : ℚ) : Except PyErr Bool :=
  match pyNumVal a with
  | some x => .ok (decide (x ≤ t))
  | none => .error .typeError

/-- Comparison t < v against the float query time. -/
def pyLtF (t : ℚ) (a : PyVal) : Except PyErr Bool :=
  match pyNumVal a with
  | some x => .ok (decide (t < x))
  | none => .error .typeError

/-- Python addition a + b for the value kinds that can reach at + dur. -/
def pyAdd (a b : PyVal) : Except PyErr PyVal :=
  match pyNumVal a, pyNumVal b with
  | some x, some y => .ok (.pynum (x + y))
  | _, _ =>
    match a, b with
    | .pystr s1, .pystr s2 => .ok (.pystr (s1 ++ s2))
    | .pylist l1, .pylist l2 => .ok (.pylist (l1 ++ l2))
    | _, _ => .error .typeError

/-- Split a character list at its first dot. -/
def splitDot : List Char → (List Char × Option (List Char))
  | [] => ([], none)
  | c :: cs =>
    if c = '.' then ([], some cs)
    else
      let p := splitDot cs
      (c :: p.1, p.2)

/-- Value of a list of decimal digit characters. -/
def digitsToNatAux (acc : ℕ) : List Char → ℕ
  | [] => acc
  | c :: cs => digitsToNatAux (acc * 10 + (c.toNat - 48)) cs

def allDigits (l : List Char) : Bool := l.all (fun c => c.isDigit)

/-- Decimal literal parser modelling float() on strings for the simple forms
sign, digits, optional fractional digits (exponents and specials omitted). -/
def parseDec (s : String) : Option ℚ :=
  let core (cs : List Char) : Option ℚ :=
    let p := splitDot cs
    match p.2 with
    | none =>
      if p.1 ≠ [] ∧ allDigits p.1 then some ((digitsToNatAux 0 p.1 : ℕ) : ℚ) else none
    | some frac =>
      if (p.1 ≠ [] ∨ frac ≠ []) ∧ allDigits p.1 ∧ allDigits frac
      then some (((digitsToNatAux 0 p.1 : ℕ) : ℚ)
        + ((digitsToNatAux 0 frac : ℕ) : ℚ) / 10 ^ frac.length)
      else none
  match s.data with
  | '-' :: r => (core r).map (fun q => -q)
  | '+' :: r => core r
  | r => core r

/-- Python float(v): numbers and bools convert, strings parse or raise
ValueError, anything else raises TypeError. -/
def pyFloat : PyVal → Except PyErr ℚ
  | .pynum q => .ok q
  | .pybool b => .ok (if b then 1 else 0)
  | .pystr s =>
    match parseDec s with
    | some q => .ok q
    | none => .error .valueError
  | _ => .error .typeError

/-- Loop of segment_at_time over the segments list (lines 104-110): fetch t0
and t1, skip when either is None, then test t0 <= t < t1 with the short
circuit evaluation Python uses for chained comparisons. -/
def pySegLoop : List PyVal → ℚ → Except PyErr (Option PyVal)
  | [], _ => .ok none
  | seg :: rest, t => do
    let t0 ← pyGet seg "t0" .pynone
    let t1 ← pyGet seg "t1" .pynone
    if isNoneV t0 || isNoneV t1 then pySegLoop rest t
    else do
      let c1 ← pyLeF t0 t
      if c1 then do
        let c2 ← pyLtF t t1
        if c2 then .ok (some seg) else pySegLoop rest t
      else pySegLoop rest t

/-- Dynamic segment_at_time (scenario_runner_v0.py lines 103-111). -/
def pySegmentAtTime (cfg : PyVal) (t : ℚ) : Except PyErr (Option PyVal) := do
  let segs ← pyGet cfg "segments" (.pylist [])
  let items ← pyIter segs
  pySegLoop items t

/-- The loop bundle[k] = bundle.get(k, 0.0) + float(v) over dict items. -/
def pyBundleFold : List (String × PyVal) → List (String × ℚ) → Except PyErr (List (String × ℚ))
  | [], b => .ok b
  | (k, v) :: rest, b => do
    let x ← pyFloat v
    pyBundleFold rest (bundleAdd b k x)

/-- Flux loop (lines 137-144) over Python values. -/
def pyFluxLoop : List PyVal → List (String × ℚ) → Except PyErr (List (String × ℚ))
  | [], b => .ok b
  | fx :: rest, b => do
    let pr ← pyGet fx "process" .pynone
    if ¬ isPyStr pr "level" then pyFluxLoop rest b
    else do
      let eff ← pyGet fx "effect" (.pydict [])
      let kind ← pyGet eff "kind" .pynone
      if ¬ isPyStr kind "continuous" then pyFluxLoop rest b
      else do
        let bv ← pyGet eff "bundle" (.pydict [])
        let kvs ← pyItems bv
        let b2 ← pyBundleFold kvs b
        pyFluxLoop rest b2

/-- Event loop (lines 147-156) over Python values. -/
def pyEventLoop : List PyVal → ℚ → List (String × ℚ) → Except PyErr (List (String × ℚ))
  | [], _, b => .ok b
  | ev :: rest, t, b => do
    let act ← pyGet ev "action" .pynone
    if ¬ isPyStr act "apply" then pyEventLoop rest t b
    else do
      let at0 ← pyGet ev "at" .pynone
      let dur ← pyGet ev "duration_s" (.pynum 0)
      match at0 with
      | .pynone => pyEventLoop rest t b
      | _ => do
        let c1 ← pyLeF at0 t
        if ¬ c1 then pyEventLoop rest t b
        else do
          let hi ← pyAdd at0 dur
          let c2 ← pyLtF t hi
          if ¬ c2 then pyEventLoop rest t b
          else do
            let bv ← pyGet ev "bundle" (.pydict [])
            let kvs ← pyItems bv
            let b2 ← pyBundleFold kvs b
            pyEventLoop rest t b2

structure PyCompileResult where
  t : ℚ
  active_segments : List PyVal
  marks : List PyVal
  fault_bundle : List (String × ℚ)

/-- Dynamic compile_fault_bundle_at_time (scenario_runner_v0.py lines 114-163),
with the exceptions Python would raise on ill-typed segment data. -/
def compileFaultBundlePy (cfg : PyVal) (t : ℚ) : Except PyErr PyCompileResult := do
  let segO ← pySegmentAtTime cfg t
  match segO with
  | none => .ok ⟨t, [], [], []⟩
  | some seg => do
    let nm ← pyGet seg "name" .pynone
    let mk0 ← pyGet seg "marks" (.pylist [])
    let mks ← pyIter mk0
    let fl0 ← pyGet seg "flux" (.pylist [])
    let fl ← pyIter fl0
    let b1 ← pyFluxLoop fl []
    let ev0 ← pyGet seg "events" (.pylist [])
    let evs ← pyIter ev0
    let b2 ← pyEventLoop evs t b1
    .ok ⟨t, [nm], mks, b2⟩

/-! Well-typedness: a sufficient shape condition under which the dynamic
compiler cannot raise.  Missing fields are always allowed. -/

/-- Value of a field in a dict association list, None when absent. -/
def fieldVal (l : List (String × PyVal)) (k : String) : Option PyVal :=
  match l.find? (fun kv => kv.1 = k) with
  | some kv => some kv.2
  | none => none

/-- A present field satisfies p; an absent field is fine. -/
def fieldOk (l : List (String × PyVal)) (k : String) (p : PyVal → Bool) : Bool :=
  match fieldVal l k with
  | some v => p v
  | none => true

def wtNum : PyVal → Bool
  | .pynum _ => true
  | _ => false

def wtNumOrNone : PyVal → Bool
  | .pynum _ => true
  | .pynone => true
  | _ => false

def wtBundle : PyVal → Bool
  | .pydict l => l.all (fun kv => wtNum kv.2)
  | _ => false

def wtEffect : PyVal → Bool
  | .pydict l => fieldOk l "bundle" wtBundle
  | _ => false

def wtFlux : PyVal → Bool
  | .pydict l => fieldOk l "effect" wtEffect
  | _ => false

def wtEvent : PyVal → Bool
  | .pydict l =>
    fieldOk l "at" wtNumOrNone && fieldOk l "duration_s" wtNum &&
    fieldOk l "bundle" wtBundle
  | _ => false

def wtList (p : PyVal → Bool) : PyVal → Bool
  | .pylist l => l.all p
  | _ => false

def wtSeg : PyVal → Bool
  | .pydict l =>
    fieldOk l "t0" wtNumOrNone && fieldOk l "t1" wtNumOrNone &&
    fieldOk l "marks" (wtList (fun _ => true)) &&
    fieldOk l "flux" (wtList wtFlux) &&
    fieldOk l "events" (wtList wtEvent)
  | _ => false

/-- Well-typed schedule document: a dict whose segments field, when present,
is a list of well-typed segment dicts. -/
def wtSchedule : PyVal → Bool
  | .pydict l => fieldOk l "segments" (wtList wtSeg)
  | _ => false

/-- A schedule whose only flaw is a non-numeric bundle value inside an active
flux rule; Python float("x") raises ValueError on it. -/
def badSchedule : PyVal :=
  .pydict [("segments", .pylist [
    .pydict [("t0", .pynum 0), ("t1", .pynum 10),
             ("flux", .pylist [
               .pydict [("process", .pystr "level"),
                        ("effect", .pydict [("kind", .pystr "continuous"),
                                            ("bundle", .pydict [("noise", .pystr "x")])])]])]])]

/-- A well-typed schedule with the same shape, used as the witness input. -/
def goodSchedule : PyVal :=
  .pydict [("segments", .pylist [
    .pydict [("t0", .pynum 0), ("t1", .pynum 10),
             ("flux", .pylist [
               .pydict [("process", .pystr "level"),
                        ("effect", .pydict [("kind", .pystr "continuous"),
                                            ("bundle", .pydict [("noise", .pynum (1/10))])])]])]])]

/-- A schedule whose only flaw is duration_s present as None in an active
apply event: the guard at <= t passes, so Python evaluates at + duration_s
(scenario_runner_v0.py line 154) and raises TypeError on 0 + None. -/
def noneDurSchedule : PyVal :=
  .pydict [("segments", .pylist [
    .pydict [("t0", .pynum 0), ("t1", .pynum 10),
             ("events", .pylist [
               .pydict [("action", .pystr "apply"), ("at", .pynum 0),
                        ("duration_s", .pynone)]])]])]

/-! ### scenario_runner_v0.py, canonical_hash (lines 28-46)

Configuration documents are modelled as JSON-like trees with integer numerals,
strings, booleans, null, nested arrays and objects, and date values (the only
values the normalize step rewrites).  canonical_hash normalizes dates to ISO
strings, serializes with sorted keys and compact separators to ASCII bytes
(json.dumps with ensure_ascii), and hashes the bytes with SHA-256. -/

inductive JVal where
  | null
  | bool (b : Bool)
  | num (n : ℤ)
  | str (s : String)
  | date (y m d : ℕ)
  | arr (l : List JVal)
  | obj (l : List (String × JVal))

/-- Zero-padded decimal field of an ISO date. -/
def padNum (w n : ℕ) : String :=
  let s := toString n
  String.mk (List.replicate (w - s.length) '0') ++ s

/-- Python date.isoformat(). -/
def isoDate (y m d : ℕ) : String :=
  padNum 4 y ++ "-" ++ padNum 2 m ++ "-" ++ padNum 2 d

mutual

/-- The normalize step of canonical_hash (scenario_runner_v0.py lines 35-42):
recurse through dicts and lists, turn date-like values into ISO strings. -/
def normalizeJ : JVal → JVal
  | .date y m d => .str (isoDate y m d)
  | .arr l => .arr (normList l)
  | .obj l => .obj (normEntries l)
  | x => x

def normList : List JVal → List JVal
  | [] => []
  | x :: xs => normalizeJ x :: normList xs

def normEntries : List (String × JVal) → List (String × JVal)
  | [] => []
  | (k, v) :: xs => (k, normalizeJ v) :: normEntries xs

end

/-- Order on object entries used by json.dumps(sort_keys=True): compare keys. -/
def keyLe (a b : String × JVal) : Prop := a.1 ≤ b.1

instance : DecidableRel keyLe := fun a b => inferInstanceAs (Decidable (a.1 ≤ b.1))

instance : IsTotal (String × JVal) keyLe := ⟨fun a b => le_total a.1 b.1⟩

instance : IsTrans (String × JVal) keyLe := ⟨fun _ _ _ h1 h2 => le_trans h1 h2⟩

mutual

/-- Recursively sort every object of a document by key; json.dumps with
sort_keys emits objects in this order (keys inside a Python dict are unique,
so any comparison sort produces this result). -/
def sortJ : JVal → JVal
  | .arr l => .arr (sortList l)
  | .obj l => .obj (List.insertionSort keyLe (sortEntries l))
  | x => x

def sortList : List JVal → List JVal
  | [] => []
  | x :: xs => sortJ x :: sortList xs

def sortEntries : List (String × JVal) → List (String × JVal)
  | [] => []
  | (k, v) :: xs => (k, sortJ v) :: sortEntries xs

end

/-- Lowercase hex digit, as json.dumps uses in escapes. -/
def hexDig (d : ℕ) : ℕ := if d < 10 then 48 + d else 87 + d

/-- Four hex digits of a code unit. -/
def hex4 (n : ℕ) : List ℕ :=
  [hexDig (n / 4096 % 16), hexDig (n / 256 % 16), hexDig (n / 16 % 16), hexDig (n % 16)]

/-- JSON escape of one character, as json.dumps with ensure_ascii produces it:
short escapes for quote, backslash and the five control shorthands, pass
through printable ASCII, escape every other code point with backslash-u,
using a surrogate pair above the basic plane. -/
def escChar (c : Char) : List ℕ :=
  let n := c.toNat
  if n = 34 then [92, 34]
  else if n = 92 then [92, 92]
  else if n = 10 then [92, 110]
  else if n = 13 then [92, 114]
  else if n = 9 then [92, 116]
  else if n = 8 then [92, 98]
  else if n = 12 then [92, 102]
  else if n < 32 then 92 :: 117 :: hex4 n
  else if n ≤ 126 then [n]
  else if n < 65536 then 92 :: 117 :: hex4 n
  else
    let u := n - 65536
    (92 :: 117 :: hex4 (55296 + u / 1024)) ++ (92 :: 117 :: hex4 (56320 + u % 1024))

def escBytes : List Char → List ℕ
  | [] => []
  | c :: cs => escChar c ++ escBytes cs

/-- Serialized JSON string: quote, escaped characters, quote. -/
def strBytes (s : String) : List ℕ := 34 :: (escBytes s.data ++ [34])

/-- Value of one hex digit byte. -/
def hexVal (b : ℕ) : Option ℕ :=
  if 48 ≤ b ∧ b ≤ 57 then some (b - 48)
  else if 97 ≤ b ∧ b ≤ 102 then some (b - 87) else none

/-- Reading of four hex digit bytes. -/
def hexVal4 (h1 h2 h3 h4 : ℕ) : Option ℕ :=
  match hexVal h1, hexVal h2, hexVal h3, hexVal h4 with
  | some d1, some d2, some d3, some d4 => some (d1 * 4096 + d2 * 256 + d3 * 16 + d4)
  | _, _, _, _ => none

/-- One decoding step of the escape decoder: the continuation k decodes the
remaining bytes. -/
def unescStep (k : List ℕ → Option (List Char)) (b : ℕ) (t : List ℕ) :
    Option (List Char) :=
  if b = 92 then
    match t with
    | [] => none
    | c :: t2 =>
      if c = 34 then (k t2).map (fun cs => Char.ofNat 34 :: cs)
      else if c = 92 then (k t2).map (fun cs => Char.ofNat 92 :: cs)
      else if c = 110 then (k t2).map (fun cs => Char.ofNat 10 :: cs)
      else if c = 114 then (k t2).map (fun cs => Char.ofNat 13 :: cs)
      else if c = 116 then (k t2).map (fun cs => Char.ofNat 9 :: cs)
      else if c = 98 then (k t2).map (fun cs => Char.ofNat 8 :: cs)
      else if c = 102 then (k t2).map (fun cs => Char.ofNat 12 :: cs)
      else if c = 117 then
        match t2 with
        | h1 :: h2 :: h3 :: h4 :: t3 =>
          match hexVal4 h1 h2 h3 h4 with
          | none => none
          | some v =>
            if 55296 ≤ v ∧ v ≤ 56319 then
              match t3 with
              | 92 :: 117 :: g1 :: g2 :: g3 :: g4 :: t4 =>
                match hexVal4 g1 g2 g3 g4 with
                | none => none
                | some w =>
                  if 56320 ≤ w ∧ w ≤ 57343 then
                    (k t4).map (fun cs =>
                      Char.ofNat (65536 + (v - 55296) * 1024 + (w - 56320)) :: cs)
                  else none
              | _ => none
            else if 56320 ≤ v ∧ v ≤ 57343 then none
            else (k t3).map (fun cs => Char.ofNat v :: cs)
        | _ => none
      else none
  else if 32 ≤ b ∧ b ≤ 126 ∧ b ≠ 34 then (k t).map (fun cs => Char.ofNat b :: cs)
  else none

/-- Decoder of the escape encoding, a left inverse of escBytes used to prove
that escaping is injective.  The fuel argument (any bound on the number of
characters) makes the recursion structural. -/
def unesc : ℕ → List ℕ → Option (List Char)
  | _, [] => some []
  | 0, _ :: _ => none
  | fuel + 1, b :: t => unescStep (unesc fuel) b t

/-- Decimal digits of a natural number, as ASCII bytes. -/
def natRepr (n : ℕ) : List ℕ :=
  if n = 0 then [48] else (Nat.digits 10 n).reverse.map (fun d => 48 + d)

/-- Decimal representation of an integer, as ASCII bytes. -/
def intRepr (n : ℤ) : List ℕ :=
  if n < 0 then 45 :: natRepr n.natAbs else natRepr n.natAbs

mutual

/-- Emission of a (already key-sorted) document as the ASCII bytes json.dumps
with separators (",", ":") produces.  A date value is emitted as its ISO
string: raw dates never reach the emitter because canonicalBytes normalizes
first (json.dumps would reject them). -/
def emitJ : JVal → List ℕ
  | .null => [110, 117, 108, 108]
  | .bool true => [116, 114, 117, 101]
  | .bool false => [102, 97, 108, 115, 101]
  | .num n => intRepr n
  | .str s => strBytes s
  | .date y m d => strBytes (isoDate y m d)
  | .arr l => 91 :: (emitArrRest l ++ [93])
  | .obj l => 123 :: (emitObjRest l ++ [125])

def emitArrRest : List JVal → List ℕ
  | [] => []
  | [x] => emitJ x
  | x :: y :: xs => emitJ x ++ 44 :: emitArrRest (y :: xs)

def emitObjRest : List (String × JVal) → List ℕ
  | [] => []
  | [(k, v)] => strBytes k ++ 58 :: emitJ v
  | (k, v) :: e :: xs => (strBytes k ++ 58 :: emitJ v) ++ 44 :: emitObjRest (e :: xs)

end

/-- The canonical serialization: the exact byte string canonical_hash feeds to
hashlib.sha256 (normalize, then key-sorted compact ASCII JSON, utf-8 encoded;
the output is pure ASCII so utf-8 encoding is the identity on code points). -/
def canonicalBytes (d : JVal) : List ℕ := emitJ (sortJ (normalizeJ d))

mutual

/-- Well-formedness carried by real Python documents: dict keys are unique. -/
def wfJ : JVal → Bool
  | .arr l => wfList l
  | .obj l => decide ((l.map Prod.fst).Nodup) && wfEntries l
  | _ => true

def wfList : List JVal → Bool
  | [] => true
  | x :: xs => wfJ x && wfList xs

def wfEntries : List (String × JVal) → Bool
  | [] => true
  | (_, v) :: xs => wfJ v && wfEntries xs

end

mutual

/-- Documents containing no date value (normalize is the identity on them). -/
def dateFree : JVal → Bool
  | .date _ _ _ => false
  | .arr l => dateFreeList l
  | .obj l => dateFreeEntries l
  | _ => true

def dateFreeList : List JVal → Bool
  | [] => true
  | x :: xs => dateFree x && dateFreeList xs

def dateFreeEntries : List (String × JVal) → Bool
  | [] => true
  | (_, v) :: xs => dateFree v && dateFreeEntries xs

end

mutual

/-- Two documents are reorderings of one another: equal leaves, pointwise
related array elements, and object entry lists that agree up to a permutation
of their (key, value) entries with related values.  This is equality as maps
for documents with unique keys. -/
inductive Reorder : JVal → JVal → Prop
  | rnull : Reorder .null .null
  | rbool (b : Bool) : Reorder (.bool b) (.bool b)
  | rnum (n : ℤ) : Reorder (.num n) (.num n)
  | rstr (s : String) : Reorder (.str s) (.str s)
  | rdate (y m d : ℕ) : Reorder (.date y m d) (.date y m d)
  | rarr {l1 l2 : List JVal} :
      ReorderList l1 l2 → Reorder (.arr l1) (.arr l2)
  | robj {l1 l2 l3 : List (String × JVal)} :
      ReorderEntries l1 l2 → l2.Perm l3 → Reorder (.obj l1) (.obj l3)

/-- Pointwise reordering of array elements. -/
inductive ReorderList : List JVal → List JVal → Prop
  | nil : ReorderList [] []
  | cons {x y : JVal} {xs ys : List JVal} :
      Reorder x y → ReorderList xs ys → ReorderList (x :: xs) (y :: ys)

/-- Pointwise reordering of object entries: same key, related values. -/
inductive ReorderEntries : List (String × JVal) → List (String × JVal) → Prop
  | nil : ReorderEntries [] []
  | cons (k : String) {x y : JVal} {xs ys : List (String × JVal)} :
      Reorder x y → ReorderEntries xs ys → ReorderEntries ((k, x) :: xs) ((k, y) :: ys)

end

/-- Scalar leaves of a document. -/
inductive Scalar : JVal → Prop
  | null : Scalar .null
  | bool (b : Bool) : Scalar (.bool b)
  | num (n : ℤ) : Scalar (.num n)
  | str (s : String) : Scalar (.str s)
  | date (y m d : ℕ) : Scalar (.date y m d)

/-- Two documents identical except for one scalar leaf that differs. -/
inductive LeafChange : JVal → JVal → Prop
  | leaf {a b : JVal} : Scalar a → Scalar b → a ≠ b → LeafChange a b
  | inArr (l r : List JVal) {x y : JVal} :
      LeafChange x y → LeafChange (.arr (l ++ x :: r)) (.arr (l ++ y :: r))
  | inObj (l r : List (String × JVal)) (k : String) {x y : JVal} :
      LeafChange x y → LeafChange (.obj (l ++ (k, x) :: r)) (.obj (l ++ (k, y) :: r))

/-! SHA-256 (FIPS 180-4) over byte lists, with the round constants derived
from the fractional parts of the cube and square roots of the first primes,
exactly as the standard defines them. -/

def w32 (x : ℕ) : ℕ := x % 4294967296

def rotr32 (x n : ℕ) : ℕ := w32 (x / 2 ^ n + x % 2 ^ n * 2 ^ (32 - n))

def shr32 (x n : ℕ) : ℕ := x / 2 ^ n

def not32 (x : ℕ) : ℕ := 4294967295 - w32 x

def ch32 (x y z : ℕ) : ℕ := (x &&& y) ^^^ (not32 x &&& z)

def maj32 (x y z : ℕ) : ℕ := (x &&& y) ^^^ (x &&& z) ^^^ (y &&& z)

def bsig0 (x : ℕ) : ℕ := rotr32 x 2 ^^^ rotr32 x 13 ^^^ rotr32 x 22

def bsig1 (x : ℕ) : ℕ := rotr32 x 6 ^^^ rotr32 x 11 ^^^ rotr32 x 25

def ssig0 (x : ℕ) : ℕ := rotr32 x 7 ^^^ rotr32 x 18 ^^^ shr32 x 3

def ssig1 (x : ℕ) : ℕ := rotr32 x 17 ^^^ rotr32 x 19 ^^^ shr32 x 10

/-- The first 64 primes. -/
def primes64 : List ℕ :=
  [2, 3, 5, 7, 11, 13, 17, 19, 23, 29, 31, 37, 41, 43, 47, 53, 59, 61, 67, 71,
   73, 79, 83, 89, 97, 101, 103, 107, 109, 113, 127, 131, 137, 139, 149, 151,
   157, 163, 167, 173, 179, 181, 191, 193, 197, 199, 211, 223, 227, 229, 233,
   239, 241, 251, 257, 263, 269, 271, 277, 281, 283, 293, 307, 311]

/-- Integer cube root by bounded binary search. -/
def icbrtAux (n : ℕ) : ℕ → ℕ → ℕ → ℕ
  | 0, lo, _ => lo
  | fuel + 1, lo, hi =>
    let mid := (lo + hi) / 2
    if mid = lo then lo
    else if mid ^ 3 ≤ n then icbrtAux n fuel mid hi
    else icbrtAux n fuel lo mid

def icbrt (n : ℕ) : ℕ := icbrtAux n 200 0 (n + 2)

/-- Round constants: first 32 bits of the fractional parts of the cube roots
of the first 64 primes. -/
def sha256K : List ℕ := primes64.map (fun p => icbrt (p * 2 ^ 96) % 4294967296)

/-- Initial hash value: first 32 bits of the fractional parts of the square
roots of the first 8 primes. -/
def sha256H0 : List ℕ := (primes64.take 8).map (fun p => Nat.sqrt (p * 2 ^ 64) % 4294967296)

def lenBytes8 (n : ℕ) : List ℕ :=
  [n / 2 ^ 56 % 256, n / 2 ^ 48 % 256, n / 2 ^ 40 % 256, n / 2 ^ 32 % 256,
   n / 2 ^ 24 % 256, n / 2 ^ 16 % 256, n / 2 ^ 8 % 256, n % 256]

/-- Padding: a 1 bit, zeros to 56 mod 64 bytes, the bit length on 8 bytes. -/
def padMsg (m : List ℕ) : List ℕ :=
  let z := (64 - (m.length + 9) % 64) % 64
  m ++ 128 :: (List.replicate z 0 ++ lenBytes8 (m.length * 8))

/-- Big-endian 32-bit words of a byte list. -/
def toWords : List ℕ → List ℕ
  | b0 :: b1 :: b2 :: b3 :: rest =>
    w32 (b0 % 256 * 16777216 + b1 % 256 * 65536 + b2 % 256 * 256 + b3 % 256) :: toWords rest
  | _ => []

/-- Split a word list into 16-word blocks. -/
def chunk16 : List ℕ → List (List ℕ)
  | [] => []
  | w :: rest => (w :: rest.take 15) :: chunk16 (rest.drop 15)
termination_by l => l.length
decreasing_by simp; omega

/-- Message schedule: extend 16 words to 64. -/
def sched64 (ws : List ℕ) : List ℕ :=
  (List.range 48).foldl
    (fun w _ =>
      let m := w.length
      w ++ [w32 (ssig1 (w.getD (m - 2) 0) + w.getD (m - 7) 0 +
                 ssig0 (w.getD (m - 15) 0) + w.getD (m - 16) 0)])
    (ws.take 16)

/-- One compression round. -/
def sha256Round (st : List ℕ) (kw : ℕ × ℕ) : List ℕ :=
  match st with
  | [a, b, c, d, e, f, g, h] =>
    let t1 := w32 (h + bsig1 e + ch32 e f g + kw.1 + kw.2)
    let t2 := w32 (bsig0 a + maj32 a b c)
    [w32 (t1 + t2), a, b, c, w32 (d + t1), e, f, g]
  | _ => st

/-- Process one 16-word block. -/
def sha256Block (h : List ℕ) (block : List ℕ) : List ℕ :=
  let fin := (sha256K.zip (sched64 block)).foldl sha256Round h
  (h.zip fin).map (fun p => w32 (p.1 + p.2))

/-- The digest as a natural number below 2^256 (the source keeps the hex
digest string; the number carries the same 256 bits). -/
def sha256Nat (m : List ℕ) : ℕ :=
  let hs := (chunk16 (toWords (padMsg m))).foldl sha256Block sha256H0
  ((hs ++ List.replicate 8 0).take 8).foldl (fun acc w => acc * 4294967296 + w % 4294967296) 0

/-- Source canonical_hash (scenario_runner_v0.py lines 28-46), with the digest
read as a number. -/
def canonical_hash (d : JVal) : ℕ := sha256Nat (canonicalBytes d)

/-- The family of documents used to exhibit a digest collision: one object
with a single integer leaf. -/
def numDoc (n : ℕ) : JVal := .obj [("k", .num (n : ℤ))]

/-- Replacement of the value stored under one key, leaving keys untouched
(used to track one changed entry through the key sort). -/
def setVal (k : String) (b : JVal) (e : String × JVal) : String × JVal :=
  if e.1 = k then (e.1, b) else e

/-- The one-segment schedule of the spec test scenario (spec section 8):
segment A over 0..10 with mark beam_on and one continuous level flux rule
carrying bundle noise: 0.1. -/
def specScenarioSeg : Segment :=
  ⟨some "A", some 0, some 10, ["beam_on"],
   [⟨some "level", some ⟨some "continuous", [("noise", 1/10)]⟩⟩], []⟩

def specScenarioCfg : FaultsCfg := ⟨[specScenarioSeg]⟩

/-! ## Theorems -/

theorem clamp_lower {x lo hi : ℚ} (h : lo ≤ hi) : lo ≤ clamp x lo hi := by
  unfold clamp; split_ifs <;> linarith

theorem clamp_upper {x lo hi : ℚ} (h : lo ≤ hi) : clamp x lo hi ≤ hi := by
  unfold clamp; split_ifs <;> linarith

theorem rampLevels_length (a b : ℚ) (n : ℕ) : (rampLevels a b n).length = n := by
  rw [rampLevels, List.length_map, List.length_range]

theorem rampLevels_getLast (a b : ℚ) {n : ℕ} (h : 1 ≤ n) :
    (rampLevels a b n).getLast? = some b := by
  have hn : (n : ℚ) ≠ 0 := Nat.cast_ne_zero.mpr (by omega)
  have hlen : (rampLevels a b n).length = n := rampLevels_length a b n
  have hidx : n - 1 < n := by omega
  rw [List.getLast?_eq_getElem?, hlen, rampLevels, List.getElem?_map, List.getElem?_range hidx]
  have hcast : ((n - 1 : ℕ) : ℚ) + 1 = (n : ℚ) := by
    have h2 := Nat.sub_add_cancel h
    exact_mod_cast congrArg (fun x : ℕ => (x : ℚ)) h2
  simp only [Option.map_some']
  rw [hcast, div_self hn]
  simp [lerp]

theorem ramp_final_mem {a b : ℚ} (ha0 : 0 ≤ a) (ha1 : a ≤ 1) (hb0 : 0 ≤ b) (hb1 : b ≤ 1)
    (n : ℕ) :
    0 ≤ ((rampLevels a b n).getLast?).getD a ∧ ((rampLevels a b n).getLast?).getD a ≤ 1 := by
  rcases Nat.eq_zero_or_pos n with hz | hz
  · rw [hz]
    simpa [rampLevels] using ⟨ha0, ha1⟩
  · rw [rampLevels_getLast _ _ hz]
    exact ⟨hb0, hb1⟩

/-- C4: from any state, fault.set with level 0.6 and mode bitflip followed by
fault.set with level 1.5 and no mode field leaves fault_level = 1.0 (clamped)
and fault_mode = "bitflip" (the absent mode field defaults to "bitflip"); the
model writes both fields in one atomic transition, matching the single
critical section the code holds for the two assignments. -/
theorem C4_fault_set_scenario (node_id : String) (s : ControlState) :
    (on_message node_id (on_message node_id s (faultSetMsg (some (3/5)) (some "bitflip")))
        (faultSetMsg (some (3/2)) none)).fault_level = 1 ∧
    (on_message node_id (on_message node_id s (faultSetMsg (some (3/5)) (some "bitflip")))
        (faultSetMsg (some (3/2)) none)).fault_mode = "bitflip" := by
  constructor
  · simp [on_message, faultSetMsg]
    norm_num [clamp]
  · simp [on_message, faultSetMsg]

/-- C9: sim.step clamps n to the range 1..10000, forces run_mode to pause and
adds the clamped n to step_remaining, accumulating over repeated commands,
while fault_level, fault_mode and tick_hz are unchanged. -/
theorem C9_sim_step (node_id : String) (s : ControlState) (n : ℤ) :
    (on_message node_id s (simStepMsg n)).step_remaining
        = s.step_remaining + max 1 (min n 10000) ∧
    (on_message node_id s (simStepMsg n)).run_mode = "pause" ∧
    (on_message node_id s (simStepMsg n)).fault_level = s.fault_level ∧
    (on_message node_id s (simStepMsg n)).fault_mode = s.fault_mode ∧
    (on_message node_id s (simStepMsg n)).tick_hz = s.tick_hz ∧
    1 ≤ max 1 (min n 10000) ∧ max 1 (min n 10000) ≤ 10000 ∧
    (on_message node_id (on_message node_id s (simStepMsg n)) (simStepMsg n)).step_remaining
        = s.step_remaining + max 1 (min n 10000) + max 1 (min n 10000) := by
  refine ⟨?_, ?_, ?_, ?_, ?_, by omega, by omega, ?_⟩ <;>
    simp [on_message, simStepMsg]

theorem control_inv_preserved (node_id : String) (s : ControlState) (msg : CmdMsg)
    (h : ControlInv s) : ControlInv (on_message node_id s msg) := by
  obtain ⟨h1, h2, h3, h4, h5⟩ := h
  unfold ControlInv on_message
  dsimp only
  split_ifs <;> try dsimp only
  · exact ⟨h1, h2, h3, h4, h5⟩
  · exact ⟨h1, h2, h3, h4, h5⟩
  · exact ⟨h1, h2, h3, h4, h5⟩
  · exact ⟨h1, h2, h3, h4, add_nonneg h5 (le_trans zero_le_one (le_max_left _ _))⟩
  · exact ⟨h1, h2, le_max_left _ _, max_le (by norm_num) (min_le_right _ _), h5⟩
  · exact ⟨clamp_lower (by norm_num), clamp_upper (by norm_num), h3, h4, h5⟩
  · exact ⟨(ramp_final_mem h1 h2 (clamp_lower (by norm_num)) (clamp_upper (by norm_num)) _).1,
           (ramp_final_mem h1 h2 (clamp_lower (by norm_num)) (clamp_upper (by norm_num)) _).2,
           h3, h4, h5⟩
  · exact ⟨h1, h2, h3, h4, h5⟩
  · exact ⟨h1, h2, h3, h4, h5⟩

/-- C5: after any sequence of commands, from the initial control state, the
numeric fields stay inside their clamp ranges (fault_level in 0..1, tick_hz in
0.2..200, step_remaining nonnegative); out-of-range parameters are clamped, as
in the sim.rate 500 example which from any state leaves tick_hz = 200. -/
theorem C5_control_ranges (node_id : String) (msgs : List CmdMsg) :
    ControlInv (msgs.foldl (on_message node_id) initialState) ∧
    ∀ s : ControlState, (on_message node_id s (simRateMsg 500)).tick_hz = 200 := by
  constructor
  · have hinit : ControlInv initialState := by
      refine ⟨le_refl 0, ?_, ?_, ?_, le_refl 0⟩ <;> norm_num [initialState]
    have : ∀ (l : List CmdMsg) (s : ControlState), ControlInv s →
        ControlInv (l.foldl (on_message node_id) s) := by
      intro l
      induction l with
      | nil => intro s hs; exact hs
      | cons m ms ih => intro s hs; exact ih _ (control_inv_preserved node_id s m hs)
    exact this msgs initialState hinit
  · intro s
    simp [on_message, simRateMsg]
    norm_num

/-- C6: the reported state of a classifier step equals SUSPECT exactly when
confidence < 0.55 and the raw prediction is one of OK, IMBALANCE or
BEARING_WEAR; otherwise it equals the raw prediction, and a STALL prediction
is never remapped. -/
theorem C6_suspect_promotion (truth : String) (rms rough fault_level : ℚ) :
    ((classifierOutput truth rms rough fault_level).state = "SUSPECT" ↔
      ((classifierOutput truth rms rough fault_level).confidence < 11/20 ∧
       ((classifierOutput truth rms rough fault_level).pred = "OK" ∨
        (classifierOutput truth rms rough fault_level).pred = "IMBALANCE" ∨
        (classifierOutput truth rms rough fault_level).pred = "BEARING_WEAR"))) ∧
    (¬ ((classifierOutput truth rms rough fault_level).confidence < 11/20 ∧
       ((classifierOutput truth rms rough fault_level).pred = "OK" ∨
        (classifierOutput truth rms rough fault_level).pred = "IMBALANCE" ∨
        (classifierOutput truth rms rough fault_level).pred = "BEARING_WEAR")) →
      (classifierOutput truth rms rough fault_level).state
        = (classifierOutput truth rms rough fault_level).pred) ∧
    ((classifierOutput truth rms rough fault_level).pred = "STALL" →
      (classifierOutput truth rms rough fault_level).state = "STALL") := by
  unfold classifierOutput
  split_ifs with hc1 hc2 hc3 <;> simp_all

/-- C7: the display color is green iff state is OK with confidence at least
0.75; yellow iff not green and state is SUSPECT or IMBALANCE or confidence is
below 0.75; red otherwise; exactly one of the three is produced, and STALL or
BEARING_WEAR with confidence at least 0.75 maps to red. -/
theorem C7_color_mapping (state : String) (confidence : ℚ) :
    (color_from_state state confidence = "green" ↔
      (state = "OK" ∧ confidence ≥ 3/4)) ∧
    (color_from_state state confidence = "yellow" ↔
      (¬ (state = "OK" ∧ confidence ≥ 3/4) ∧
       (state = "SUSPECT" ∨ state = "IMBALANCE" ∨ confidence < 3/4))) ∧
    (color_from_state state confidence = "red" ↔
      (¬ (state = "OK" ∧ confidence ≥ 3/4) ∧
       ¬ (state = "SUSPECT" ∨ state = "IMBALANCE" ∨ confidence < 3/4))) ∧
    (color_from_state state confidence = "green" ∨
     color_from_state state confidence = "yellow" ∨
     color_from_state state confidence = "red") ∧
    ((state = "STALL" ∨ state = "BEARING_WEAR") → confidence ≥ 3/4 →
      color_from_state state confidence = "red") := by
  unfold color_from_state
  split_ifs with h1 h2
  · simp_all
  · simp_all
    rintro (hs | hs) <;> subst hs <;>
      rcases h2 with h | h | h <;> first | exact h | exact absurd h (by decide)
  · simp_all
    intro h
    exact absurd (h1 h) (not_lt.mpr h2.2.2)

/-- C6 witness. -/
theorem C6_suspect_promotion_witness :
    (classifierOutput "STALL" 1 0 0).pred = "STALL" ∧
    (classifierOutput "STALL" 1 0 0).state = "STALL" := by
  have hp : (classifierOutput "STALL" 1 0 0).pred = "STALL" := by
    simp [classifierOutput]
  exact ⟨hp, (C6_suspect_promotion "STALL" 1 0 0).2.2 hp⟩

/-- C7 witness. -/
theorem C7_color_mapping_witness :
    (("STALL" : String) = "STALL" ∨ ("STALL" : String) = "BEARING_WEAR") ∧
    (1 : ℚ) ≥ 3/4 ∧ color_from_state "STALL" 1 = "red" :=
  ⟨Or.inl rfl, by norm_num,
   (C7_color_mapping "STALL" 1).2.2.2.2 (Or.inl rfl) (by norm_num)⟩

/-- C3 counterexample: fault.ramp with level 1 and seconds 0.1 computes
int(max(0.1, 0.1) / 0.2) = 0 increments, so the ramp completes without any
write and the shared fault_level stays 0, not the clamped target 1. -/
theorem C3_counterexample :
    (on_message "node01" initialState (faultRampMsg 1 (1/10))).fault_level = 0 ∧
    clamp 1 0 1 = 1 ∧
    ¬ (on_message "node01" initialState (faultRampMsg 1 (1/10))).fault_level = clamp 1 0 1 := by
  have hfl : (on_message "node01" initialState (faultRampMsg 1 (1/10))).fault_level = 0 := by
    simp [on_message, faultRampMsg, initialState, rampSteps, rampLevels, clamp]
    norm_num
  have hcl : clamp 1 0 1 = 1 := by norm_num [clamp]
  refine ⟨hfl, hcl, ?_⟩
  rw [hfl, hcl]
  norm_num

/-- C3 amended: a fault.ramp command performs int(max(0.1, seconds) / 0.2)
increments of 0.2 seconds, the i-th writing lerp(start, clamped target,
(i+1)/steps); whenever at least one increment occurs the final fault_level is
the clamped target, and with zero increments (max(0.1, seconds) < 0.2) the
level is left unchanged. -/
theorem C3_ramp_final (node_id : String) (s : ControlState) (lvl sec : ℚ) :
    (1 ≤ rampSteps (max (1/10) sec) →
      (on_message node_id s (faultRampMsg lvl sec)).fault_level = clamp lvl 0 1) ∧
    (rampSteps (max (1/10) sec) = 0 →
      (on_message node_id s (faultRampMsg lvl sec)).fault_level = s.fault_level) ∧
    (rampLevels s.fault_level (clamp lvl 0 1) (rampSteps (max (1/10) sec))).length
      = rampSteps (max (1/10) sec) ∧
    (∀ i, i < rampSteps (max (1/10) sec) →
      (rampLevels s.fault_level (clamp lvl 0 1) (rampSteps (max (1/10) sec))).getD i 0
        = lerp s.fault_level (clamp lvl 0 1)
            (((i : ℚ) + 1) / (rampSteps (max (1/10) sec) : ℚ))) := by
  have hred : (on_message node_id s (faultRampMsg lvl sec)).fault_level
      = ((rampLevels s.fault_level (clamp lvl 0 1)
          (rampSteps (max (1/10) sec))).getLast?).getD s.fault_level := by
    simp [on_message, faultRampMsg]
  refine ⟨?_, ?_, rampLevels_length _ _ _, ?_⟩
  · intro h
    rw [hred, rampLevels_getLast _ _ h]
    rfl
  · intro h
    rw [hred, h]
    rfl
  · intro i hi
    rw [rampLevels, List.getD, List.get?_map, List.get?_range hi]
    rfl

/-- C3 witness. -/
theorem C3_ramp_final_witness :
    (1 ≤ rampSteps (max (1/10) 1) ∧
      (on_message "node01" initialState (faultRampMsg (1/2) 1)).fault_level = clamp (1/2) 0 1) ∧
    (0 < rampSteps (max (1/10) 1) ∨
      (on_message "node01" initialState (faultRampMsg (1/2) 1)).fault_level
        = initialState.fault_level) := by
  have h1 : (1 : ℕ) ≤ rampSteps (max (1/10) 1) := by
    norm_num [rampSteps]
  refine ⟨⟨h1, (C3_ramp_final "node01" initialState (1/2) 1).1 h1⟩, Or.inl h1⟩

/-- C10: inside an active segment an event without duration_s contributes
nothing at any query time (the default 0 makes the window empty), and an event
without at is skipped entirely; the concrete instances show a skipped missing
at is not treated as at = 0, which would contribute. -/
theorem C10_event_defaults (t : ℚ) (b : List (String × ℚ)) (ev : SEvent) :
    (ev.at' = none ∨ ev.duration_s = none → eventStep t b ev = b) ∧
    eventStep 0 [] ⟨some "apply", none, some 1, [("noise", 1)]⟩ = [] ∧
    eventStep 0 [] ⟨some "apply", some 0, some 1, [("noise", 1)]⟩ = [("noise", 1)] := by
  refine ⟨?_, by simp [eventStep], by simp [eventStep, bundleExtend, bundleAdd]⟩
  intro h
  unfold eventStep
  rcases h with h | h
  · rw [h]
    split <;> rfl
  · split
    · cases hat : ev.at' with
      | none => rfl
      | some a =>
        rw [h]
        have : ¬ (a ≤ t ∧ t < a + (Option.getD none 0 : ℚ)) := by
          rintro ⟨ha, hb⟩
          simp only [Option.getD] at hb
          linarith
        simp only [Option.getD_none] at this ⊢
        rw [if_neg this]
    · rfl

/-- C10 witness. -/
theorem C10_event_defaults_witness :
    ((⟨some "apply", none, some 1, [("noise", 1)]⟩ : SEvent).at' = none ∨
      (⟨some "apply", none, some 1, [("noise", 1)]⟩ : SEvent).duration_s = none) ∧
    eventStep 0 [("x", 2)] ⟨some "apply", none, some 1, [("noise", 1)]⟩ = [("x", 2)] := by
  refine ⟨Or.inl rfl, ?_⟩
  exact (C10_event_defaults 0 [("x", 2)] ⟨some "apply", none, some 1, [("noise", 1)]⟩).1
    (Or.inl rfl)

theorem bundleLookup_bundleAdd (b : List (String × ℚ)) (k0 : String) (v : ℚ) (k : String) :
    bundleLookup (bundleAdd b k0 v) k = bundleLookup b k + (if k0 = k then v else 0) := by
  induction b with
  | nil =>
    by_cases h : k0 = k <;> simp [bundleAdd, bundleLookup, h]
  | cons hd tl ih =>
    obtain ⟨k1, v1⟩ := hd
    by_cases h1 : k1 = k0
    · subst h1
      by_cases h2 : k1 = k <;> simp [bundleAdd, bundleLookup, h2]
    · by_cases h2 : k1 = k
      · subst h2
        have hne : ¬ k0 = k1 := fun h => h1 h.symm
        simp [bundleAdd, bundleLookup, h1, hne, if_neg]
      · simp only [bundleAdd, if_neg h1]
        simp only [bundleLookup, List.find?] at *
        simp [h2, ih]

theorem bundleLookup_bundleExtend (kvs : List (String × ℚ)) (b : List (String × ℚ))
    (k : String) :
    bundleLookup (bundleExtend b kvs) k = bundleLookup b k + keySum kvs k := by
  induction kvs generalizing b with
  | nil => simp [bundleExtend, keySum]
  | cons hd tl ih =>
    obtain ⟨k1, v1⟩ := hd
    show bundleLookup (bundleExtend (bundleAdd b k1 v1) tl) k = _
    rw [ih, bundleLookup_bundleAdd]
    by_cases h : k1 = k <;> simp [keySum, h, List.filter] <;> ring

theorem bundleLookup_fluxFold (fxs : List FluxRule) (b : List (String × ℚ)) (k : String) :
    bundleLookup (fxs.foldl fluxStep b) k
      = bundleLookup b k +
        (fxs.map (fun fx =>
          if fx.process = some "level" ∧ (fx.effect.getD ⟨none, []⟩).kind = some "continuous"
          then keySum (fx.effect.getD ⟨none, []⟩).bundle k else 0)).sum := by
  induction fxs generalizing b with
  | nil => simp
  | cons fx tl ih =>
    show bundleLookup (tl.foldl fluxStep (fluxStep b fx)) k = _
    rw [ih]
    by_cases h1 : fx.process = some "level"
    · by_cases h2 : (fx.effect.getD ⟨none, []⟩).kind = some "continuous"
      · simp only [fluxStep, if_pos h1, if_pos h2, List.map, List.sum_cons, h1, h2,
          and_self, if_pos]
        rw [bundleLookup_bundleExtend]
        ring
      · simp only [fluxStep, if_pos h1, if_neg h2, List.map, List.sum_cons]
        have hno : ¬ (fx.process = some "level" ∧
            (fx.effect.getD ⟨none, []⟩).kind = some "continuous") := fun hh => h2 hh.2
        rw [if_neg hno]
        ring
    · simp only [fluxStep, if_neg h1, List.map, List.sum_cons]
      have hno : ¬ (fx.process = some "level" ∧
          (fx.effect.getD ⟨none, []⟩).kind = some "continuous") := fun hh => h1 hh.1
      rw [if_neg hno]
      ring

theorem bundleLookup_eventFold (evs : List SEvent) (t : ℚ) (b : List (String × ℚ))
    (k : String) :
    bundleLookup (evs.foldl (eventStep t) b) k
      = bundleLookup b k +
        (evs.map (fun ev =>
          match ev.at' with
          | none => 0
          | some a =>
            if ev.action = some "apply" ∧ a ≤ t ∧ t < a + ev.duration_s.getD 0
            then keySum ev.bundle k else 0)).sum := by
  induction evs generalizing b with
  | nil => simp
  | cons ev tl ih =>
    show bundleLookup (tl.foldl (eventStep t) (eventStep t b ev)) k = _
    rw [ih]
    simp only [List.map, List.sum_cons]
    rcases hat : ev.at' with _ | a
    · by_cases h1 : ev.action = some "apply" <;> simp [eventStep, hat, h1]
    · by_cases h1 : ev.action = some "apply"
      · by_cases h2 : a ≤ t ∧ t < a + ev.duration_s.getD 0
        · simp only [eventStep, if_pos h1, hat, if_pos h2, if_pos (And.intro h1 h2)]
          rw [bundleLookup_bundleExtend]
          ring
        · have hno : ¬ (ev.action = some "apply" ∧ a ≤ t ∧ t < a + ev.duration_s.getD 0) :=
            fun hh => h2 hh.2
          simp only [eventStep, if_pos h1, hat, if_neg h2, if_neg hno]
          ring
      · have hno : ¬ (ev.action = some "apply" ∧ a ≤ t ∧ t < a + ev.duration_s.getD 0) :=
          fun hh => h1 hh.1
        simp only [eventStep, if_neg h1, if_neg hno]
        ring

theorem find?_split {α : Type} (p : α → Bool) :
    ∀ (l : List α) (x : α), l.find? p = some x →
      ∃ pre post, l = pre ++ x :: post ∧ (∀ y ∈ pre, p y = false) ∧ p x = true := by
  intro l
  induction l with
  | nil => intro x h; simp [List.find?] at h
  | cons hd tl ih =>
    intro x h
    rcases hp : p hd with _ | _
    · rw [List.find?_cons_of_neg _ (by simp [hp])] at h
      obtain ⟨pre, post, heq, hpre, hx⟩ := ih x h
      exact ⟨hd :: pre, post, by simp [heq], by
        intro y hy
        rcases List.mem_cons.mp hy with h1 | h1
        · rw [h1]; exact hp
        · exact hpre y h1, hx⟩
    · rw [List.find?_cons_of_pos _ hp] at h
      injection h with h
      subst h
      exact ⟨[], tl, rfl, by simp, hp⟩

theorem segCovers_iff (t : ℚ) (seg : Segment) :
    segCovers t seg = true ↔ ∃ a b, seg.t0 = some a ∧ seg.t1 = some b ∧ a ≤ t ∧ t < b := by
  unfold segCovers
  rcases h0 : seg.t0 with _ | a <;> rcases h1 : seg.t1 with _ | b <;> simp

/-- C1: for every schedule and query time, the compiled fault_bundle maps each
key to the sum of every matching contribution at that instant: the bundles of
the flux rules with process level and continuous effect kind of the first
segment, in schedule order, with t0 and t1 present and t0 <= t < t1, plus the
bundles of that segment events with action apply active at t, summing on key
collision; when no segment covers t the result carries an empty bundle and
empty active_segments and marks lists. -/
theorem C1_compile_bundle_sums (cfg : FaultsCfg) (t : ℚ) :
    (segment_at_time cfg t = none →
      compile_fault_bundle_at_time cfg t = ⟨t, [], [], []⟩ ∧
      ∀ seg ∈ cfg.segments, ¬ ∃ a b, seg.t0 = some a ∧ seg.t1 = some b ∧ a ≤ t ∧ t < b) ∧
    (∀ seg, segment_at_time cfg t = some seg →
      (compile_fault_bundle_at_time cfg t).t = t ∧
      (compile_fault_bundle_at_time cfg t).active_segments = [seg.name] ∧
      (compile_fault_bundle_at_time cfg t).marks = seg.marks ∧
      (∀ k, bundleLookup (compile_fault_bundle_at_time cfg t).fault_bundle k
          = specFluxContrib seg k + specEventContrib seg t k) ∧
      (∃ a b, seg.t0 = some a ∧ seg.t1 = some b ∧ a ≤ t ∧ t < b) ∧
      (∃ pre post, cfg.segments = pre ++ seg :: post ∧
        ∀ s0 ∈ pre, ¬ ∃ a b, s0.t0 = some a ∧ s0.t1 = some b ∧ a ≤ t ∧ t < b)) := by
  constructor
  · intro h
    constructor
    · unfold compile_fault_bundle_at_time
      rw [h]
    · intro seg hmem
      rw [← segCovers_iff]
      have hfalse := List.find?_eq_none.mp h seg hmem
      simp at hfalse
      simp [hfalse]
  · intro seg h
    have hfind := h
    unfold segment_at_time at hfind
    obtain ⟨pre, post, heq, hpre, hcov⟩ := find?_split _ _ _ hfind
    have hcomp : compile_fault_bundle_at_time cfg t
        = ⟨t, [seg.name], seg.marks,
           seg.events.foldl (eventStep t) (seg.flux.foldl fluxStep [])⟩ := by
      unfold compile_fault_bundle_at_time
      rw [h]
    refine ⟨by rw [hcomp], by rw [hcomp], by rw [hcomp], ?_,
      (segCovers_iff t seg).mp hcov, ?_⟩
    · intro k
      rw [hcomp]
      show bundleLookup (seg.events.foldl (eventStep t) (seg.flux.foldl fluxStep [])) k = _
      rw [bundleLookup_eventFold, bundleLookup_fluxFold]
      simp [bundleLookup, specFluxContrib, specEventContrib]
    · exact ⟨pre, post, heq, by
        intro s0 hs0
        rw [← segCovers_iff]
        simp [hpre s0 hs0]⟩

/-- C1 witness, on the spec test scenario. -/
theorem C1_compile_bundle_sums_witness :
    segment_at_time specScenarioCfg 5 = some specScenarioSeg ∧
    bundleLookup (compile_fault_bundle_at_time specScenarioCfg 5).fault_bundle "noise"
      = specFluxContrib specScenarioSeg "noise" + specEventContrib specScenarioSeg 5 "noise" ∧
    (compile_fault_bundle_at_time specScenarioCfg 5).marks = ["beam_on"] := by
  have hseg : segment_at_time specScenarioCfg 5 = some specScenarioSeg := by
    simp [segment_at_time, specScenarioCfg, List.find?, segCovers, specScenarioSeg]
    norm_num
  have hmain := (C1_compile_bundle_sums specScenarioCfg 5).2 specScenarioSeg hseg
  refine ⟨hseg, hmain.2.2.2.1 "noise", ?_⟩
  rw [hmain.2.2.1]
  rfl

theorem ebind_ok {α β : Type} (a : α) (f : α → Except PyErr β) :
    (Except.ok a >>= f) = f a := rfl

theorem pyGet_dict (l : List (String × PyVal)) (k : String) (d : PyVal) :
    pyGet (.pydict l) k d = .ok ((fieldVal l k).getD d) := by
  rcases hf : l.find? (fun kv => kv.1 = k) with _ | kv <;>
    simp [pyGet, fieldVal, hf]

theorem fieldOk_val {l : List (String × PyVal)} {k : String} {p : PyVal → Bool}
    (h : fieldOk l k p = true) (d : PyVal) (hd : p d = true) :
    p ((fieldVal l k).getD d) = true := by
  unfold fieldOk at h
  rcases hv : fieldVal l k with _ | v
  · simpa using hd
  · rw [hv] at h
    simpa using h

theorem pyBundleFold_ok :
    ∀ (kvs : List (String × PyVal)) (b : List (String × ℚ)),
      (∀ kv ∈ kvs, wtNum kv.2 = true) → ∃ r, pyBundleFold kvs b = .ok r := by
  intro kvs
  induction kvs with
  | nil => intro b _; exact ⟨b, rfl⟩
  | cons kv rest ih =>
    intro b h
    obtain ⟨k, v⟩ := kv
    have hv : wtNum v = true := h (k, v) (List.mem_cons_self _ _)
    rcases v with _ | _ | q | _ | _ | _ <;> simp [wtNum] at hv
    have : pyBundleFold ((k, .pynum q) :: rest) b
        = pyBundleFold rest (bundleAdd b k q) := by
      simp [pyBundleFold, pyFloat, ebind_ok]
    rw [this]
    exact ih _ (fun kv hkv => h kv (List.mem_cons_of_mem _ hkv))

theorem wtEffect_empty : wtEffect (.pydict []) = true := by
  simp [wtEffect, fieldOk, fieldVal]

theorem wtBundle_empty : wtBundle (.pydict []) = true := by
  simp [wtBundle]

theorem pyFluxLoop_ok :
    ∀ (fxs : List PyVal) (b : List (String × ℚ)),
      (∀ fx ∈ fxs, wtFlux fx = true) → ∃ r, pyFluxLoop fxs b = .ok r := by
  intro fxs
  induction fxs with
  | nil => intro b _; exact ⟨b, rfl⟩
  | cons fx rest ih =>
    intro b h
    have hfx := h fx (List.mem_cons_self _ _)
    have hrest : ∀ x ∈ rest, wtFlux x = true := fun x hx => h x (List.mem_cons_of_mem _ hx)
    rcases fx with _ | _ | _ | _ | _ | l <;> simp [wtFlux] at hfx
    simp only [pyFluxLoop, pyGet_dict, ebind_ok]
    by_cases hpr : isPyStr ((fieldVal l "process").getD PyVal.pynone) "level"
    case neg =>
      simp only [hpr]
      simpa using ih b hrest
    case pos =>
      simp only [hpr]
      have heff : wtEffect ((fieldVal l "effect").getD (PyVal.pydict [])) = true :=
        fieldOk_val hfx _ wtEffect_empty
      generalize hE : (fieldVal l "effect").getD (PyVal.pydict []) = eff at heff
      rcases eff with _ | _ | _ | _ | _ | le <;> simp [wtEffect] at heff
      simp only [pyGet_dict, ebind_ok, ite_not]
      by_cases hk : isPyStr ((fieldVal le "kind").getD PyVal.pynone) "continuous"
      case neg =>
        simp only [hk]
        simpa using ih b hrest
      case pos =>
        simp only [hk]
        have hbv : wtBundle ((fieldVal le "bundle").getD (PyVal.pydict [])) = true :=
          fieldOk_val heff _ wtBundle_empty
        generalize hB : (fieldVal le "bundle").getD (PyVal.pydict []) = bv at hbv
        rcases bv with _ | _ | _ | _ | _ | lb <;> simp [wtBundle] at hbv
        obtain ⟨b2, hb2⟩ := pyBundleFold_ok lb b (by
          intro kv hkv
          obtain ⟨k1, v1⟩ := kv
          exact hbv k1 v1 hkv)
        simp only [pyItems, ebind_ok, hb2]
        simpa using ih b2 hrest

theorem pyEventLoop_ok :
    ∀ (evs : List PyVal) (t : ℚ) (b : List (String × ℚ)),
      (∀ ev ∈ evs, wtEvent ev = true) → ∃ r, pyEventLoop evs t b = .ok r := by
  intro evs
  induction evs with
  | nil => intro t b _; exact ⟨b, rfl⟩
  | cons ev rest ih =>
    intro t b h
    have hev := h ev (List.mem_cons_self _ _)
    have hrest : ∀ x ∈ rest, wtEvent x = true := fun x hx => h x (List.mem_cons_of_mem _ hx)
    rcases ev with _ | _ | _ | _ | _ | l <;> simp [wtEvent] at hev
    obtain ⟨⟨hat, hdur⟩, hbun⟩ := hev
    simp only [pyEventLoop, pyGet_dict, ebind_ok]
    by_cases hact : isPyStr ((fieldVal l "action").getD PyVal.pynone) "apply"
    case neg =>
      simp only [hact]
      simpa using ih t b hrest
    case pos =>
      simp only [hact]
      have hat2 : wtNumOrNone ((fieldVal l "at").getD PyVal.pynone) = true :=
        fieldOk_val hat _ rfl
      have hdur2 : wtNum ((fieldVal l "duration_s").getD (PyVal.pynum 0)) = true :=
        fieldOk_val hdur _ rfl
      generalize hA : (fieldVal l "at").getD PyVal.pynone = at0 at hat2
      generalize hD : (fieldVal l "duration_s").getD (PyVal.pynum 0) = dur at hdur2
      rcases at0 with _ | _ | a | _ | _ | _ <;> simp [wtNumOrNone] at hat2
      · simpa using ih t b hrest
      · rcases dur with _ | _ | d | _ | _ | _ <;> simp [wtNum] at hdur2
        simp only [pyLeF, pyNumVal, ebind_ok]
        by_cases hc1 : a ≤ t
        case neg =>
          simp only [decide_eq_true_eq, hc1]
          simpa using ih t b hrest
        case pos =>
          simp only [decide_eq_true_eq, hc1]
          simp only [pyAdd, pyNumVal, ebind_ok, pyLtF]
          by_cases hc2 : t < a + d
          case neg =>
            simp only [decide_eq_true_eq, hc2]
            simpa using ih t b hrest
          case pos =>
            simp only [decide_eq_true_eq, hc2]
            have hbv : wtBundle ((fieldVal l "bundle").getD (PyVal.pydict [])) = true :=
              fieldOk_val hbun _ wtBundle_empty
            generalize hB : (fieldVal l "bundle").getD (PyVal.pydict []) = bv at hbv
            rcases bv with _ | _ | _ | _ | _ | lb <;> simp [wtBundle] at hbv
            obtain ⟨b2, hb2⟩ := pyBundleFold_ok lb b (by
              intro kv hkv
              obtain ⟨k1, v1⟩ := kv
              exact hbv k1 v1 hkv)
            simp only [pyItems, ebind_ok, hb2]
            simpa using ih t b2 hrest

theorem pySegLoop_ok :
    ∀ (segs : List PyVal) (t : ℚ),
      (∀ sv ∈ segs, wtSeg sv = true) →
      ∃ r, pySegLoop segs t = .ok r ∧ ∀ sv, r = some sv → sv ∈ segs := by
  intro segs
  induction segs with
  | nil =>
    intro t _
    exact ⟨none, rfl, by intro sv h; cases h⟩
  | cons seg rest ih =>
    intro t h
    have hseg := h seg (List.mem_cons_self _ _)
    have hrest : ∀ x ∈ rest, wtSeg x = true := fun x hx => h x (List.mem_cons_of_mem _ hx)
    obtain ⟨r, hr, hmem⟩ := ih t hrest
    rcases seg with _ | _ | _ | _ | _ | l <;> simp [wtSeg] at hseg
    obtain ⟨⟨⟨⟨h0, h1⟩, _⟩, _⟩, _⟩ := hseg
    have h02 : wtNumOrNone ((fieldVal l "t0").getD PyVal.pynone) = true :=
      fieldOk_val h0 _ rfl
    have h12 : wtNumOrNone ((fieldVal l "t1").getD PyVal.pynone) = true :=
      fieldOk_val h1 _ rfl
    simp only [pySegLoop, pyGet_dict, ebind_ok]
    generalize hA : (fieldVal l "t0").getD PyVal.pynone = t0 at h02
    generalize hB : (fieldVal l "t1").getD PyVal.pynone = t1 at h12
    rcases t0 with _ | _ | a | _ | _ | _ <;> simp [wtNumOrNone] at h02
    · simp only [isNoneV, Bool.true_or, if_true]
      exact ⟨r, hr, fun sv hsv => List.mem_cons_of_mem _ (hmem sv hsv)⟩
    · rcases t1 with _ | _ | bq | _ | _ | _ <;> simp [wtNumOrNone] at h12
      · simp only [isNoneV, Bool.or_true, if_true]
        exact ⟨r, hr, fun sv hsv => List.mem_cons_of_mem _ (hmem sv hsv)⟩
      · simp only [isNoneV, Bool.or_self, if_false, Bool.or_false]
        simp only [pyLeF, pyNumVal, ebind_ok]
        by_cases hc1 : a ≤ t
        case neg =>
          simp only [decide_eq_true_eq, hc1, if_false]
          exact ⟨r, hr, fun sv hsv => List.mem_cons_of_mem _ (hmem sv hsv)⟩
        case pos =>
          simp only [decide_eq_true_eq, hc1, if_true]
          simp only [pyLtF, pyNumVal, ebind_ok]
          by_cases hc2 : t < bq
          case neg =>
            simp only [decide_eq_true_eq, hc2, if_false]
            exact ⟨r, hr, fun sv hsv => List.mem_cons_of_mem _ (hmem sv hsv)⟩
          case pos =>
            simp only [decide_eq_true_eq, hc2, if_true]
            refine ⟨some (PyVal.pydict l), rfl, ?_⟩
            intro sv hsv
            injection hsv with hsv
            rw [← hsv]
            exact List.mem_cons_self _ _

/-- C2 amended: the dynamic compiler is total on every schedule document whose
present fields are well-typed (segments a list of dicts, time fields numeric or
None, marks and flux and events lists, effects and bundles dicts with numeric
bundle values); absent fields are tolerated and default to no effect.  The
claim as stated is false: Python raises on ill-typed values inside segment
data, e.g. float() of a non-numeric bundle value raises ValueError, see the
counterexample. -/
theorem C2_total_on_welltyped (cfg : PyVal) (t : ℚ) (h : wtSchedule cfg = true) :
    ∃ r, compileFaultBundlePy cfg t = .ok r := by
  rcases cfg with _ | _ | _ | _ | _ | l <;> simp [wtSchedule] at h
  have hsegs : wtList wtSeg ((fieldVal l "segments").getD (PyVal.pylist [])) = true :=
    fieldOk_val h _ rfl
  generalize hS : (fieldVal l "segments").getD (PyVal.pylist []) = segs at hsegs
  rcases segs with _ | _ | _ | _ | items | _ <;> simp [wtList] at hsegs
  have hall : ∀ x ∈ items, wtSeg x = true := fun x hx => hsegs x hx
  obtain ⟨r, hr, hmem⟩ := pySegLoop_ok items t hall
  simp only [compileFaultBundlePy, pySegmentAtTime, pyGet_dict, ebind_ok, hS, pyIter]
  rw [hr]
  simp only [ebind_ok]
  rcases r with _ | seg
  · exact ⟨_, rfl⟩
  · have hsv : wtSeg seg = true := hall seg (hmem seg rfl)
    rcases seg with _ | _ | _ | _ | _ | sl <;> simp [wtSeg] at hsv
    obtain ⟨⟨⟨_, hmk⟩, hfl⟩, hev⟩ := hsv
    simp only [pyGet_dict, ebind_ok]
    have hmk2 : wtList (fun _ => true) ((fieldVal sl "marks").getD (PyVal.pylist [])) = true :=
      fieldOk_val hmk _ rfl
    generalize hM : (fieldVal sl "marks").getD (PyVal.pylist []) = mk0 at hmk2
    rcases mk0 with _ | _ | _ | _ | lm | _ <;> simp [wtList] at hmk2
    all_goals simp only [pyIter, ebind_ok]
    have hfl2 : wtList wtFlux ((fieldVal sl "flux").getD (PyVal.pylist [])) = true :=
      fieldOk_val hfl _ rfl
    generalize hF : (fieldVal sl "flux").getD (PyVal.pylist []) = fl0 at hfl2
    rcases fl0 with _ | _ | _ | _ | lf | _ <;> simp [wtList] at hfl2
    simp only [pyIter, ebind_ok]
    obtain ⟨b1, hb1⟩ := pyFluxLoop_ok lf [] (fun x hx => hfl2 x hx)
    rw [hb1]
    simp only [ebind_ok]
    have hev2 : wtList wtEvent ((fieldVal sl "events").getD (PyVal.pylist [])) = true :=
      fieldOk_val hev _ rfl
    generalize hE : (fieldVal sl "events").getD (PyVal.pylist []) = ev0 at hev2
    rcases ev0 with _ | _ | _ | _ | lev | _ <;> simp [wtList] at hev2
    simp only [pyIter, ebind_ok]
    obtain ⟨b2, hb2⟩ := pyEventLoop_ok lev t b1 (fun x hx => hev2 x hx)
    rw [hb2]
    simp only [ebind_ok]
    exact ⟨_, rfl⟩


/-- C2 counterexample: a schedule whose active segment carries the flux bundle
value "x" makes compile raise ValueError through float("x"), so compile is not
total on arbitrary documents and malformed values are errors, not no-effects. -/
theorem C2_counterexample : compileFaultBundlePy badSchedule 0 = .error .valueError := rfl

theorem noneDuration_typeError :
    compileFaultBundlePy noneDurSchedule 0 = .error .typeError ∧
    wtSchedule noneDurSchedule = false := ⟨rfl, rfl⟩

/-- C2 witness. -/
theorem C2_total_on_welltyped_witness :
    wtSchedule goodSchedule = true ∧
    ∃ r, compileFaultBundlePy goodSchedule 0 = .ok r :=
  ⟨rfl, C2_total_on_welltyped goodSchedule 0 rfl⟩

theorem sortEntries_append : ∀ xs ys : List (String × JVal),
    sortEntries (xs ++ ys) = sortEntries xs ++ sortEntries ys := by
  intro xs ys
  induction xs with
  | nil => rfl
  | cons kv rest ih =>
    obtain ⟨k, v⟩ := kv
    simp [sortEntries, ih]

theorem sortList_append : ∀ xs ys : List JVal,
    sortList (xs ++ ys) = sortList xs ++ sortList ys := by
  intro xs ys
  induction xs with
  | nil => rfl
  | cons x rest ih => simp [sortList, ih]

theorem sortEntries_map_fst : ∀ xs : List (String × JVal),
    (sortEntries xs).map Prod.fst = xs.map Prod.fst := by
  intro xs
  induction xs with
  | nil => rfl
  | cons kv rest ih =>
    obtain ⟨k, v⟩ := kv
    simp [sortEntries, ih]

theorem normEntries_append : ∀ xs ys : List (String × JVal),
    normEntries (xs ++ ys) = normEntries xs ++ normEntries ys := by
  intro xs ys
  induction xs with
  | nil => rfl
  | cons kv rest ih =>
    obtain ⟨k, v⟩ := kv
    simp [normEntries, ih]

theorem normList_append : ∀ xs ys : List JVal,
    normList (xs ++ ys) = normList xs ++ normList ys := by
  intro xs ys
  induction xs with
  | nil => rfl
  | cons x rest ih => simp [normList, ih]

theorem normEntries_map_fst : ∀ xs : List (String × JVal),
    (normEntries xs).map Prod.fst = xs.map Prod.fst := by
  intro xs
  induction xs with
  | nil => rfl
  | cons kv rest ih =>
    obtain ⟨k, v⟩ := kv
    simp [normEntries, ih]

theorem sortEntries_perm {l1 l2 : List (String × JVal)} (h : l1.Perm l2) :
    (sortEntries l1).Perm (sortEntries l2) := by
  induction h with
  | nil => exact List.Perm.refl _
  | cons x h ih =>
    obtain ⟨k, v⟩ := x
    simpa [sortEntries] using ih.cons (k, sortJ v)
  | swap x y l =>
    obtain ⟨k1, v1⟩ := x
    obtain ⟨k2, v2⟩ := y
    simpa [sortEntries] using List.Perm.swap _ _ _
  | trans h1 h2 ih1 ih2 => exact ih1.trans ih2

theorem normEntries_perm {l1 l2 : List (String × JVal)} (h : l1.Perm l2) :
    (normEntries l1).Perm (normEntries l2) := by
  induction h with
  | nil => exact List.Perm.refl _
  | cons x h ih =>
    obtain ⟨k, v⟩ := x
    simpa [normEntries] using ih.cons (k, normalizeJ v)
  | swap x y l =>
    obtain ⟨k1, v1⟩ := x
    obtain ⟨k2, v2⟩ := y
    simpa [normEntries] using List.Perm.swap _ _ _
  | trans h1 h2 ih1 ih2 => exact ih1.trans ih2

theorem wfList_mem : ∀ {l : List JVal} {x : JVal}, wfList l = true → x ∈ l → wfJ x = true := by
  intro l
  induction l with
  | nil => intro x _ hx; cases hx
  | cons y rest ih =>
    intro x h hx
    simp only [wfList, Bool.and_eq_true] at h
    rcases List.mem_cons.mp hx with h1 | h1
    · rw [h1]; exact h.1
    · exact ih h.2 h1

theorem wfEntries_mem : ∀ {l : List (String × JVal)} {k : String} {v : JVal},
    wfEntries l = true → (k, v) ∈ l → wfJ v = true := by
  intro l
  induction l with
  | nil => intro k v _ hx; cases hx
  | cons y rest ih =>
    intro k v h hx
    obtain ⟨k1, v1⟩ := y
    simp only [wfEntries, Bool.and_eq_true] at h
    rcases List.mem_cons.mp hx with h1 | h1
    · injection h1 with e1 e2
      rw [e2]; exact h.1
    · exact ih h.2 h1

theorem dateFreeList_mem : ∀ {l : List JVal} {x : JVal},
    dateFreeList l = true → x ∈ l → dateFree x = true := by
  intro l
  induction l with
  | nil => intro x _ hx; cases hx
  | cons y rest ih =>
    intro x h hx
    simp only [dateFreeList, Bool.and_eq_true] at h
    rcases List.mem_cons.mp hx with h1 | h1
    · rw [h1]; exact h.1
    · exact ih h.2 h1

theorem dateFreeEntries_mem : ∀ {l : List (String × JVal)} {k : String} {v : JVal},
    dateFreeEntries l = true → (k, v) ∈ l → dateFree v = true := by
  intro l
  induction l with
  | nil => intro k v _ hx; cases hx
  | cons y rest ih =>
    intro k v h hx
    obtain ⟨k1, v1⟩ := y
    simp only [dateFreeEntries, Bool.and_eq_true] at h
    rcases List.mem_cons.mp hx with h1 | h1
    · injection h1 with e1 e2
      rw [e2]; exact h.1
    · exact ih h.2 h1

theorem sorted_keys_strict {l : List (String × JVal)} (hs : List.Sorted keyLe l)
    (hn : (l.map Prod.fst).Nodup) :
    List.Sorted (fun a b : String × JVal => a.1 < b.1) l := by
  have hp : List.Pairwise (fun a b : String × JVal => a.1 ≠ b.1) l := List.pairwise_map.mp hn
  have hand := List.Pairwise.and hs hp
  exact hand.imp (fun h => lt_of_le_of_ne h.1 h.2)

theorem sortK_eq_of_perm {l1 l2 : List (String × JVal)} (h : l1.Perm l2)
    (hn : (l1.map Prod.fst).Nodup) :
    List.insertionSort keyLe l1 = List.insertionSort keyLe l2 := by
  haveI : IsAntisymm (String × JVal) (fun a b : String × JVal => a.1 < b.1) :=
    ⟨fun a b h1 h2 => (lt_asymm h1 h2).elim⟩
  have hp : (List.insertionSort keyLe l1).Perm (List.insertionSort keyLe l2) :=
    ((List.perm_insertionSort keyLe l1).trans h).trans
      (List.perm_insertionSort keyLe l2).symm
  have hn2 : (l2.map Prod.fst).Nodup := ((h.map Prod.fst).nodup_iff).mp hn
  have hk1 : ((List.insertionSort keyLe l1).map Prod.fst).Nodup :=
    (((List.perm_insertionSort keyLe l1).map Prod.fst).nodup_iff).mpr hn
  have hk2 : ((List.insertionSort keyLe l2).map Prod.fst).Nodup :=
    (((List.perm_insertionSort keyLe l2).map Prod.fst).nodup_iff).mpr hn2
  exact List.eq_of_perm_of_sorted hp
    (sorted_keys_strict (List.sorted_insertionSort keyLe l1) hk1)
    (sorted_keys_strict (List.sorted_insertionSort keyLe l2) hk2)

mutual

theorem reorder_sortJ : ∀ {d1 d2 : JVal}, Reorder d1 d2 → wfJ d1 = true →
    sortJ d1 = sortJ d2
  | _, _, .rnull, _ => rfl
  | _, _, .rbool b, _ => rfl
  | _, _, .rnum n, _ => rfl
  | _, _, .rstr s, _ => rfl
  | _, _, .rdate y m d, _ => rfl
  | _, _, .rarr hl, hw => by
    simp only [wfJ] at hw
    simp only [sortJ]
    exact congrArg JVal.arr (reorder_sortList hl hw)
  | .obj l1, .obj l3, .robj hent hperm, hw => by
    simp only [wfJ, Bool.and_eq_true, decide_eq_true_eq] at hw
    obtain ⟨hn, hentwf⟩ := hw
    have he := reorder_sortEntries hent hentwf
    have hp3 : (sortEntries l1).Perm (sortEntries l3) := he ▸ sortEntries_perm hperm
    have hn1 : ((sortEntries l1).map Prod.fst).Nodup := by
      rw [sortEntries_map_fst]
      exact hn
    simp only [sortJ]
    exact congrArg JVal.obj (sortK_eq_of_perm hp3 hn1)

theorem reorder_sortList : ∀ {l1 l2 : List JVal}, ReorderList l1 l2 → wfList l1 = true →
    sortList l1 = sortList l2
  | _, _, .nil, _ => rfl
  | _, _, .cons hx hrest, hw => by
    simp only [wfList, Bool.and_eq_true] at hw
    simp only [sortList]
    exact congrArg₂ List.cons (reorder_sortJ hx hw.1) (reorder_sortList hrest hw.2)

theorem reorder_sortEntries : ∀ {l1 l2 : List (String × JVal)}, ReorderEntries l1 l2 →
    wfEntries l1 = true → sortEntries l1 = sortEntries l2
  | _, _, .nil, _ => rfl
  | _, _, .cons k hx hrest, hw => by
    simp only [wfEntries, Bool.and_eq_true] at hw
    simp only [sortEntries]
    rw [reorder_sortJ hx hw.1, reorder_sortEntries hrest hw.2]

end

mutual

theorem reorder_normalizeJ : ∀ {d1 d2 : JVal}, Reorder d1 d2 →
    Reorder (normalizeJ d1) (normalizeJ d2)
  | _, _, .rnull => .rnull
  | _, _, .rbool b => .rbool b
  | _, _, .rnum n => .rnum n
  | _, _, .rstr s => .rstr s
  | _, _, .rdate y m d => .rstr (isoDate y m d)
  | _, _, .rarr hl => .rarr (reorder_normList hl)
  | _, _, .robj hent hperm => .robj (reorder_normEntries hent) (normEntries_perm hperm)

theorem reorder_normList : ∀ {l1 l2 : List JVal}, ReorderList l1 l2 →
    ReorderList (normList l1) (normList l2)
  | _, _, .nil => .nil
  | _, _, .cons hx hrest => .cons (reorder_normalizeJ hx) (reorder_normList hrest)

theorem reorder_normEntries : ∀ {l1 l2 : List (String × JVal)}, ReorderEntries l1 l2 →
    ReorderEntries (normEntries l1) (normEntries l2)
  | _, _, .nil => .nil
  | _, _, .cons k hx hrest => .cons k (reorder_normalizeJ hx) (reorder_normEntries hrest)

end

mutual

theorem wf_normalizeJ : ∀ d : JVal, wfJ d = true → wfJ (normalizeJ d) = true
  | .null, h => h
  | .bool _, h => h
  | .num _, h => h
  | .str _, h => h
  | .date _ _ _, _ => rfl
  | .arr l, h => by
    simp only [normalizeJ, wfJ] at *
    exact wf_normList l h
  | .obj l, h => by
    simp only [normalizeJ, wfJ, Bool.and_eq_true, decide_eq_true_eq] at *
    refine ⟨?_, wf_normEntries l h.2⟩
    rw [normEntries_map_fst]
    exact h.1

theorem wf_normList : ∀ l : List JVal, wfList l = true → wfList (normList l) = true
  | [], h => h
  | x :: xs, h => by
    simp only [normList, wfList, Bool.and_eq_true] at *
    exact ⟨wf_normalizeJ x h.1, wf_normList xs h.2⟩

theorem wf_normEntries : ∀ l : List (String × JVal), wfEntries l = true →
    wfEntries (normEntries l) = true
  | [], h => h
  | (k, v) :: xs, h => by
    simp only [normEntries, wfEntries, Bool.and_eq_true] at *
    exact ⟨wf_normalizeJ v h.1, wf_normEntries xs h.2⟩

end

theorem hexVal_hexDig {d : ℕ} (h : d < 16) : hexVal (hexDig d) = some d := by
  unfold hexDig hexVal
  by_cases hd : d < 10
  · rw [if_pos hd, if_pos (by omega : 48 ≤ 48 + d ∧ 48 + d ≤ 57)]
    congr 1
    omega
  · rw [if_neg hd]
    rw [if_neg (by omega : ¬ (48 ≤ 87 + d ∧ 87 + d ≤ 57))]
    rw [if_pos (by omega : 97 ≤ 87 + d ∧ 87 + d ≤ 102)]
    congr 1
    omega

theorem hexVal4_hex4 {n : ℕ} (h : n < 65536) :
    hexVal4 (hexDig (n / 4096 % 16)) (hexDig (n / 256 % 16))
      (hexDig (n / 16 % 16)) (hexDig (n % 16)) = some n := by
  unfold hexVal4
  rw [hexVal_hexDig (by omega), hexVal_hexDig (by omega), hexVal_hexDig (by omega),
    hexVal_hexDig (by omega)]
  show some _ = some n
  exact congrArg some (by omega)

theorem unesc_cons (f : ℕ) (b : ℕ) (t : List ℕ) :
    unesc (f + 1) (b :: t) = unescStep (unesc f) b t := rfl

theorem unescStep_esc_quote (k : List ℕ → Option (List Char)) (t : List ℕ) :
    unescStep k 92 (34 :: t) = (k t).map (fun cs => Char.ofNat 34 :: cs) := by
  simp [unescStep]

theorem unescStep_lit {b : ℕ} (h32 : 32 ≤ b) (h126 : b ≤ 126) (h34 : b ≠ 34) (h92 : b ≠ 92)
    (k : List ℕ → Option (List Char)) (t : List ℕ) :
    unescStep k b t = (k t).map (fun cs => Char.ofNat b :: cs) := by
  simp only [unescStep]
  rw [if_neg h92, if_pos ⟨h32, h126, h34⟩]

theorem unescStep_u4 {h1 h2 h3 h4 v : ℕ}
    (hv : hexVal4 h1 h2 h3 h4 = some v)
    (hno1 : ¬ (55296 ≤ v ∧ v ≤ 56319)) (hno2 : ¬ (56320 ≤ v ∧ v ≤ 57343))
    (k : List ℕ → Option (List Char)) (t : List ℕ) :
    unescStep k 92 (117 :: h1 :: h2 :: h3 :: h4 :: t)
      = (k t).map (fun cs => Char.ofNat v :: cs) := by
  simp only [unescStep]
  norm_num
  rw [hv]
  dsimp only
  rw [if_neg hno1, if_neg hno2]

theorem unescStep_esc_backslash (k : List ℕ → Option (List Char)) (t : List ℕ) :
    unescStep k 92 (92 :: t) = (k t).map (fun cs => Char.ofNat 92 :: cs) := by
  simp [unescStep]

theorem unescStep_esc_n (k : List ℕ → Option (List Char)) (t : List ℕ) :
    unescStep k 92 (110 :: t) = (k t).map (fun cs => Char.ofNat 10 :: cs) := by
  simp [unescStep]

theorem unescStep_esc_r (k : List ℕ → Option (List Char)) (t : List ℕ) :
    unescStep k 92 (114 :: t) = (k t).map (fun cs => Char.ofNat 13 :: cs) := by
  simp [unescStep]

theorem unescStep_esc_t (k : List ℕ → Option (List Char)) (t : List ℕ) :
    unescStep k 92 (116 :: t) = (k t).map (fun cs => Char.ofNat 9 :: cs) := by
  simp [unescStep]

theorem unescStep_esc_b (k : List ℕ → Option (List Char)) (t : List ℕ) :
    unescStep k 92 (98 :: t) = (k t).map (fun cs => Char.ofNat 8 :: cs) := by
  simp [unescStep]

theorem unescStep_esc_f (k : List ℕ → Option (List Char)) (t : List ℕ) :
    unescStep k 92 (102 :: t) = (k t).map (fun cs => Char.ofNat 12 :: cs) := by
  simp [unescStep]

theorem unescStep_surr {h1 h2 h3 h4 g1 g2 g3 g4 v w : ℕ}
    (hv : hexVal4 h1 h2 h3 h4 = some v) (hw : hexVal4 g1 g2 g3 g4 = some w)
    (hhi : 55296 ≤ v ∧ v ≤ 56319) (hlo : 56320 ≤ w ∧ w ≤ 57343)
    (k : List ℕ → Option (List Char)) (t : List ℕ) :
    unescStep k 92 (117 :: h1 :: h2 :: h3 :: h4 :: 92 :: 117 :: g1 :: g2 :: g3 :: g4 :: t)
      = (k t).map (fun cs =>
          Char.ofNat (65536 + (v - 55296) * 1024 + (w - 56320)) :: cs) := by
  simp only [unescStep]
  norm_num
  rw [hv]
  dsimp only
  rw [if_pos hhi]
  norm_num
  rw [hw]
  dsimp only
  rw [if_pos hlo]

theorem char_toNat_valid (c : Char) :
    c.toNat < 55296 ∨ (57344 ≤ c.toNat ∧ c.toNat < 1114112) := by
  rcases c.valid with h | ⟨h1, h2⟩
  · exact Or.inl h
  · exact Or.inr ⟨h1, h2⟩

theorem unesc_escBytes : ∀ (cs : List Char) (f : ℕ), cs.length ≤ f →
    unesc f (escBytes cs) = some cs := by
  intro cs
  induction cs with
  | nil =>
    intro f _
    cases f <;> rfl
  | cons c cs ih =>
    intro f hf
    simp only [List.length_cons] at hf
    obtain ⟨f2, rfl⟩ : ∃ f2, f = f2 + 1 := ⟨f - 1, by omega⟩
    have hf2 : cs.length ≤ f2 := by omega
    have hrec := ih f2 hf2
    have hvalid := char_toNat_valid c
    show unesc (f2 + 1) (escBytes (c :: cs)) = some (c :: cs)
    have hesc : escBytes (c :: cs) = escChar c ++ escBytes cs := rfl
    rw [hesc]
    by_cases h34 : c.toNat = 34
    · rw [show escChar c = [92, 34] by simp [escChar, h34]]
      rw [List.cons_append, List.cons_append, List.nil_append, unesc_cons,
        unescStep_esc_quote, hrec, Option.map_some']
      rw [show Char.ofNat 34 = c by rw [← h34, Char.ofNat_toNat]]
    · by_cases h92 : c.toNat = 92
      · rw [show escChar c = [92, 92] by simp [escChar, h34, h92]]
        rw [List.cons_append, List.cons_append, List.nil_append, unesc_cons,
          unescStep_esc_backslash, hrec, Option.map_some']
        rw [show Char.ofNat 92 = c by rw [← h92, Char.ofNat_toNat]]
      · by_cases h10 : c.toNat = 10
        · rw [show escChar c = [92, 110] by simp [escChar, h34, h92, h10]]
          rw [List.cons_append, List.cons_append, List.nil_append, unesc_cons,
            unescStep_esc_n, hrec, Option.map_some']
          rw [show Char.ofNat 10 = c by rw [← h10, Char.ofNat_toNat]]
        · by_cases h13 : c.toNat = 13
          · rw [show escChar c = [92, 114] by simp [escChar, h34, h92, h10, h13]]
            rw [List.cons_append, List.cons_append, List.nil_append, unesc_cons,
              unescStep_esc_r, hrec, Option.map_some']
            rw [show Char.ofNat 13 = c by rw [← h13, Char.ofNat_toNat]]
          · by_cases h9 : c.toNat = 9
            · rw [show escChar c = [92, 116] by simp [escChar, h34, h92, h10, h13, h9]]
              rw [List.cons_append, List.cons_append, List.nil_append, unesc_cons,
                unescStep_esc_t, hrec, Option.map_some']
              rw [show Char.ofNat 9 = c by rw [← h9, Char.ofNat_toNat]]
            · by_cases h8 : c.toNat = 8
              · rw [show escChar c = [92, 98] by simp [escChar, h34, h92, h10, h13, h9, h8]]
                rw [List.cons_append, List.cons_append, List.nil_append, unesc_cons,
                  unescStep_esc_b, hrec, Option.map_some']
                rw [show Char.ofNat 8 = c by rw [← h8, Char.ofNat_toNat]]
              · by_cases h12 : c.toNat = 12
                · rw [show escChar c = [92, 102] by
                    simp [escChar, h34, h92, h10, h13, h9, h8, h12]]
                  rw [List.cons_append, List.cons_append, List.nil_append, unesc_cons,
                    unescStep_esc_f, hrec, Option.map_some']
                  rw [show Char.ofNat 12 = c by rw [← h12, Char.ofNat_toNat]]
                · by_cases h32 : c.toNat < 32
                  · rw [show escChar c = 92 :: 117 :: hex4 c.toNat by
                      simp [escChar, h34, h92, h10, h13, h9, h8, h12, h32]]
                    rw [show hex4 c.toNat = [hexDig (c.toNat / 4096 % 16),
                      hexDig (c.toNat / 256 % 16), hexDig (c.toNat / 16 % 16),
                      hexDig (c.toNat % 16)] from rfl]
                    rw [List.cons_append, List.cons_append, List.cons_append,
                      List.cons_append, List.cons_append, List.cons_append,
                      List.nil_append, unesc_cons]
                    rw [unescStep_u4 (hexVal4_hex4 (by omega)) (by omega) (by omega), hrec,
                      Option.map_some', Char.ofNat_toNat]
                  · by_cases h126 : c.toNat ≤ 126
                    · rw [show escChar c = [c.toNat] by
                        simp [escChar, h34, h92, h10, h13, h9, h8, h12, h32, h126]]
                      rw [List.cons_append, List.nil_append, unesc_cons]
                      rw [unescStep_lit (by omega) h126 h34 h92, hrec, Option.map_some', Char.ofNat_toNat]
                    · by_cases h65536 : c.toNat < 65536
                      · rw [show escChar c = 92 :: 117 :: hex4 c.toNat by
                          simp [escChar, h34, h92, h10, h13, h9, h8, h12, h32, h126, h65536]]
                        rw [show hex4 c.toNat = [hexDig (c.toNat / 4096 % 16),
                          hexDig (c.toNat / 256 % 16), hexDig (c.toNat / 16 % 16),
                          hexDig (c.toNat % 16)] from rfl]
                        rw [List.cons_append, List.cons_append, List.cons_append,
                          List.cons_append, List.cons_append, List.cons_append,
                          List.nil_append, unesc_cons]
                        rw [unescStep_u4 (hexVal4_hex4 h65536) (by omega) (by omega), hrec,
                          Option.map_some', Char.ofNat_toNat]
                      · rw [show escChar c
                            = (92 :: 117 :: hex4 (55296 + (c.toNat - 65536) / 1024))
                              ++ (92 :: 117 :: hex4 (56320 + (c.toNat - 65536) % 1024)) by
                          simp [escChar, h34, h92, h10, h13, h9, h8, h12, h32, h126, h65536]]
                        rw [show hex4 (55296 + (c.toNat - 65536) / 1024)
                            = [hexDig ((55296 + (c.toNat - 65536) / 1024) / 4096 % 16),
                               hexDig ((55296 + (c.toNat - 65536) / 1024) / 256 % 16),
                               hexDig ((55296 + (c.toNat - 65536) / 1024) / 16 % 16),
                               hexDig ((55296 + (c.toNat - 65536) / 1024) % 16)] from rfl]
                        rw [show hex4 (56320 + (c.toNat - 65536) % 1024)
                            = [hexDig ((56320 + (c.toNat - 65536) % 1024) / 4096 % 16),
                               hexDig ((56320 + (c.toNat - 65536) % 1024) / 256 % 16),
                               hexDig ((56320 + (c.toNat - 65536) % 1024) / 16 % 16),
                               hexDig ((56320 + (c.toNat - 65536) % 1024) % 16)] from rfl]
                        simp only [List.cons_append, List.nil_append]
                        rw [unesc_cons]
                        rw [unescStep_surr (hexVal4_hex4 (by omega)) (hexVal4_hex4 (by omega))
                          (by omega) (by omega), hrec, Option.map_some']
                        have : Char.ofNat (65536
                            + (55296 + (c.toNat - 65536) / 1024 - 55296) * 1024
                            + (56320 + (c.toNat - 65536) % 1024 - 56320)) = c := by
                          rw [show 65536 + (55296 + (c.toNat - 65536) / 1024 - 55296) * 1024
                              + (56320 + (c.toNat - 65536) % 1024 - 56320) = c.toNat by omega]
                          exact Char.ofNat_toNat c
                        rw [this]

theorem escBytes_inj {a b : List Char} (h : escBytes a = escBytes b) : a = b := by
  have ha := unesc_escBytes a (a.length + b.length) (by omega)
  have hb := unesc_escBytes b (a.length + b.length) (by omega)
  rw [h, hb] at ha
  injection ha with ha
  exact ha.symm

theorem strBytes_inj {s1 s2 : String} (h : strBytes s1 = strBytes s2) : s1 = s2 := by
  unfold strBytes at h
  injection h with h1 h
  have h2 := List.append_cancel_right h
  have h3 := escBytes_inj h2
  cases s1
  cases s2
  exact congrArg String.mk h3

theorem natRepr_ne_nil (n : ℕ) : natRepr n ≠ [] := by
  unfold natRepr
  split
  · simp
  · next h =>
    simp only [ne_eq, List.map_eq_nil, List.reverse_eq_nil_iff]
    exact Nat.digits_ne_nil_iff_ne_zero.mpr h

theorem natRepr_head_digit : ∀ {n h : ℕ} {rest : List ℕ}, natRepr n = h :: rest →
    48 ≤ h ∧ h ≤ 57 := by
  intro n h rest he
  unfold natRepr at he
  split at he
  · injection he with h1 _
    omega
  · rcases hrev : (Nat.digits 10 n).reverse with _ | ⟨d, ds⟩
    · rw [hrev] at he
      simp at he
    · rw [hrev] at he
      rw [List.map_cons] at he
      injection he with h1 _
      have hd : d ∈ Nat.digits 10 n := by
        have hm : d ∈ (Nat.digits 10 n).reverse := by
          rw [hrev]
          exact List.mem_cons_self _ _
        exact List.mem_reverse.mp hm
      have hlt : d < 10 := Nat.digits_lt_base (by norm_num) hd
      omega

theorem natRepr_inj : ∀ {m n : ℕ}, natRepr m = natRepr n → m = n := by
  have key : ∀ {n : ℕ}, n ≠ 0 →
      (Nat.digits 10 n).reverse.map (fun x => 48 + x) = [48] → False := by
    intro n hn h
    have hl : ((Nat.digits 10 n).reverse.map (fun x => 48 + x)).length = 1 := by
      rw [h]
      rfl
    rw [List.length_map, List.length_reverse] at hl
    obtain ⟨e, he⟩ := List.length_eq_one.mp hl
    rw [he] at h
    simp only [List.reverse_cons, List.reverse_nil, List.nil_append, List.map_cons,
      List.map_nil] at h
    have he0 : e = 0 := by
      have := List.head_eq_of_cons_eq h
      omega
    have hofd := Nat.ofDigits_digits 10 n
    rw [he, he0] at hofd
    simp [Nat.ofDigits] at hofd
    exact hn hofd.symm
  intro m n h
  unfold natRepr at h
  by_cases hm : m = 0 <;> by_cases hn : n = 0
  · rw [hm, hn]
  · exact absurd (by rw [if_pos hm, if_neg hn] at h; exact h.symm) (fun hc => key hn hc)
  · exact absurd (by rw [if_neg hm, if_pos hn] at h; exact h) (fun hc => key hm hc)
  · rw [if_neg hm, if_neg hn] at h
    have hinj : Function.Injective (fun x : ℕ => 48 + x) := by
      intro a b hab
      simp only at hab
      omega
    have h2 := List.map_injective_iff.mpr hinj h
    have h3 := List.reverse_injective h2
    have h4 := Nat.ofDigits_digits 10 m
    rw [h3, Nat.ofDigits_digits] at h4
    exact h4.symm

theorem intRepr_inj : ∀ {a b : ℤ}, intRepr a = intRepr b → a = b := by
  intro a b h
  unfold intRepr at h
  split_ifs at h with ha hb hb
  · injection h with _ h2
    have := natRepr_inj h2
    omega
  · exfalso
    obtain ⟨hd, _⟩ := natRepr_head_digit h.symm
    omega
  · exfalso
    obtain ⟨hd, _⟩ := natRepr_head_digit h
    omega
  · have := natRepr_inj h
    omega

theorem intRepr_head (n : ℤ) :
    ∃ h rest, intRepr n = h :: rest ∧ (h = 45 ∨ (48 ≤ h ∧ h ≤ 57)) := by
  unfold intRepr
  split_ifs with hn
  · exact ⟨45, natRepr n.natAbs, rfl, Or.inl rfl⟩
  · rcases hr : natRepr n.natAbs with _ | ⟨h, rest⟩
    · exact absurd hr (natRepr_ne_nil _)
    · exact ⟨h, rest, rfl, Or.inr (natRepr_head_digit hr)⟩

mutual

theorem normalize_dateFree_id : ∀ d : JVal, dateFree d = true → normalizeJ d = d
  | .null, _ => rfl
  | .bool _, _ => rfl
  | .num _, _ => rfl
  | .str _, _ => rfl
  | .date _ _ _, h => by simp [dateFree] at h
  | .arr l, h => by
    simp only [dateFree] at h
    simp only [normalizeJ]
    exact congrArg JVal.arr (normList_dateFree_id l h)
  | .obj l, h => by
    simp only [dateFree] at h
    simp only [normalizeJ]
    exact congrArg JVal.obj (normEntries_dateFree_id l h)

theorem normList_dateFree_id : ∀ l : List JVal, dateFreeList l = true → normList l = l
  | [], _ => rfl
  | x :: xs, h => by
    simp only [dateFreeList, Bool.and_eq_true] at h
    simp only [normList]
    rw [normalize_dateFree_id x h.1, normList_dateFree_id xs h.2]

theorem normEntries_dateFree_id : ∀ l : List (String × JVal), dateFreeEntries l = true →
    normEntries l = l
  | [], _ => rfl
  | (k, v) :: xs, h => by
    simp only [dateFreeEntries, Bool.and_eq_true] at h
    simp only [normEntries]
    rw [normalize_dateFree_id v h.1, normEntries_dateFree_id xs h.2]

end

theorem scalar_sortJ : ∀ {a : JVal}, Scalar a → sortJ a = a := by
  intro a h
  cases h <;> simp [sortJ]

theorem scalar_emit_ne : ∀ {a b : JVal}, Scalar a → Scalar b → dateFree a = true →
    dateFree b = true → a ≠ b → emitJ a ≠ emitJ b := by
  intro a b ha hb hda hdb hne
  cases ha with
  | date y m d => simp [dateFree] at hda
  | null =>
    cases hb with
    | date y m d => simp [dateFree] at hdb
    | null => exact absurd rfl hne
    | bool c =>
      intro h
      cases c <;> simp only [emitJ] at h <;> exact absurd h (by decide)
    | num n =>
      intro h
      simp only [emitJ] at h
      obtain ⟨hd, rest, he, hh⟩ := intRepr_head n
      rw [he] at h
      exact absurd (List.head_eq_of_cons_eq h) (by omega)
    | str s =>
      intro h
      simp only [emitJ, strBytes] at h
      exact absurd (List.head_eq_of_cons_eq h) (by omega)
  | bool c =>
    cases hb with
    | date y m d => simp [dateFree] at hdb
    | null =>
      intro h
      cases c <;> simp only [emitJ] at h <;> exact absurd h (by decide)
    | bool c2 =>
      intro h
      cases c <;> cases c2
      · exact hne rfl
      · simp only [emitJ] at h
        exact absurd h (by decide)
      · simp only [emitJ] at h
        exact absurd h (by decide)
      · exact hne rfl
    | num n =>
      intro h
      obtain ⟨hd, rest, he, hh⟩ := intRepr_head n
      cases c <;> simp only [emitJ] at h <;> rw [he] at h <;>
        exact absurd (List.head_eq_of_cons_eq h) (by omega)
    | str s =>
      intro h
      cases c <;> simp only [emitJ, strBytes] at h <;>
        exact absurd (List.head_eq_of_cons_eq h) (by omega)
  | num n =>
    cases hb with
    | date y m d => simp [dateFree] at hdb
    | null =>
      intro h
      simp only [emitJ] at h
      obtain ⟨hd, rest, he, hh⟩ := intRepr_head n
      rw [he] at h
      exact absurd (List.head_eq_of_cons_eq h) (by omega)
    | bool c =>
      intro h
      obtain ⟨hd, rest, he, hh⟩ := intRepr_head n
      cases c <;> simp only [emitJ] at h <;> rw [he] at h <;>
        exact absurd (List.head_eq_of_cons_eq h) (by omega)
    | num n2 =>
      intro h
      simp only [emitJ] at h
      exact hne (congrArg JVal.num (intRepr_inj h))
    | str s =>
      intro h
      simp only [emitJ, strBytes] at h
      obtain ⟨hd, rest, he, hh⟩ := intRepr_head n
      rw [he] at h
      exact absurd (List.head_eq_of_cons_eq h) (by omega)
  | str s =>
    cases hb with
    | date y m d => simp [dateFree] at hdb
    | null =>
      intro h
      simp only [emitJ, strBytes] at h
      exact absurd (List.head_eq_of_cons_eq h) (by omega)
    | bool c =>
      intro h
      cases c <;> simp only [emitJ, strBytes] at h <;>
        exact absurd (List.head_eq_of_cons_eq h) (by omega)
    | num n =>
      intro h
      simp only [emitJ, strBytes] at h
      obtain ⟨hd, rest, he, hh⟩ := intRepr_head n
      rw [he] at h
      exact absurd (List.head_eq_of_cons_eq h) (by omega)
    | str s2 =>
      intro h
      simp only [emitJ] at h
      exact hne (congrArg JVal.str (strBytes_inj h))

theorem emitArrRest_cons_ne_nil (x : JVal) {xs : List JVal} (h : xs ≠ []) :
    emitArrRest (x :: xs) = emitJ x ++ 44 :: emitArrRest xs := by
  cases xs with
  | nil => exact absurd rfl h
  | cons y ys => simp [emitArrRest]

theorem emitObjRest_cons_ne_nil (e : String × JVal) {xs : List (String × JVal)} (h : xs ≠ []) :
    emitObjRest (e :: xs) = (strBytes e.1 ++ 58 :: emitJ e.2) ++ 44 :: emitObjRest xs := by
  obtain ⟨k, v⟩ := e
  cases xs with
  | nil => exact absurd rfl h
  | cons f fs => simp [emitObjRest]

theorem emitArrRest_context_ne : ∀ (P : List JVal) (Q : List JVal) {a b : JVal},
    emitJ a ≠ emitJ b → emitArrRest (P ++ a :: Q) ≠ emitArrRest (P ++ b :: Q) := by
  intro P
  induction P with
  | nil =>
    intro Q a b hab h
    cases Q with
    | nil =>
      simp only [List.nil_append, emitArrRest] at h
      exact hab h
    | cons q qs =>
      rw [List.nil_append, List.nil_append, emitArrRest_cons_ne_nil a (by simp),
        emitArrRest_cons_ne_nil b (by simp)] at h
      exact hab (List.append_cancel_right h)
  | cons p ps ih =>
    intro Q a b hab h
    rw [List.cons_append, List.cons_append, emitArrRest_cons_ne_nil p (by simp),
      emitArrRest_cons_ne_nil p (by simp)] at h
    have h2 := List.append_cancel_left h
    injection h2 with _ h3
    exact ih Q hab h3

theorem emitObjRest_context_ne : ∀ (P : List (String × JVal)) (Q : List (String × JVal))
    (k : String) {a b : JVal}, emitJ a ≠ emitJ b →
    emitObjRest (P ++ (k, a) :: Q) ≠ emitObjRest (P ++ (k, b) :: Q) := by
  intro P
  induction P with
  | nil =>
    intro Q k a b hab h
    cases Q with
    | nil =>
      simp only [List.nil_append, emitObjRest] at h
      have h2 := List.append_cancel_left h
      injection h2 with _ h3
      exact hab h3
    | cons q qs =>
      rw [List.nil_append, List.nil_append, emitObjRest_cons_ne_nil (k, a) (by simp),
        emitObjRest_cons_ne_nil (k, b) (by simp)] at h
      rw [List.append_assoc, List.append_assoc] at h
      have h2 := List.append_cancel_left h
      injection h2 with _ h3
      exact hab (List.append_cancel_right h3)
  | cons p ps ih =>
    intro Q k a b hab h
    rw [List.cons_append, List.cons_append, emitObjRest_cons_ne_nil p (by simp),
      emitObjRest_cons_ne_nil p (by simp)] at h
    have h2 := List.append_cancel_left h
    injection h2 with _ h3
    exact ih Q k hab h3

theorem emitJ_arr_ne {l1 l2 : List JVal} (h : emitArrRest l1 ≠ emitArrRest l2) :
    emitJ (.arr l1) ≠ emitJ (.arr l2) := by
  intro he
  simp only [emitJ] at he
  injection he with _ h2
  exact h (List.append_cancel_right h2)

theorem emitJ_obj_ne {l1 l2 : List (String × JVal)}
    (h : emitObjRest l1 ≠ emitObjRest l2) : emitJ (.obj l1) ≠ emitJ (.obj l2) := by
  intro he
  simp only [emitJ] at he
  injection he with _ h2
  exact h (List.append_cancel_right h2)

theorem setVal_fst (k : String) (b : JVal) (e : String × JVal) :
    (setVal k b e).1 = e.1 := by
  unfold setVal
  split <;> rfl

theorem setVal_eq_self {k : String} {b : JVal} {e : String × JVal} (h : e.1 ≠ k) :
    setVal k b e = e := by
  unfold setVal
  rw [if_neg h]

theorem setVal_hit (k : String) (b a : JVal) : setVal k b (k, a) = (k, b) := by
  unfold setVal
  rw [if_pos rfl]

theorem map_setVal_eq_self {k : String} {b : JVal} : ∀ {l : List (String × JVal)},
    k ∉ l.map Prod.fst → l.map (setVal k b) = l := by
  intro l
  induction l with
  | nil => intro _; rfl
  | cons e t ih =>
    intro h
    simp only [List.map_cons, List.mem_cons, not_or] at h
    rw [List.map_cons, setVal_eq_self (fun hc => h.1 hc.symm), ih h.2]

theorem orderedInsert_map_setVal (k : String) (b : JVal) (x : String × JVal) :
    ∀ l : List (String × JVal),
    List.orderedInsert keyLe (setVal k b x) (l.map (setVal k b)) =
      (List.orderedInsert keyLe x l).map (setVal k b) := by
  intro l
  induction l with
  | nil => rfl
  | cons y t ih =>
    simp only [List.map_cons, List.orderedInsert]
    have hiff : keyLe (setVal k b x) (setVal k b y) ↔ keyLe x y := by
      unfold keyLe
      rw [setVal_fst, setVal_fst]
    by_cases hle : keyLe x y
    · rw [if_pos (hiff.mpr hle), if_pos hle]
      rfl
    · rw [if_neg (fun hc => hle (hiff.mp hc)), if_neg hle, List.map_cons, ih]

theorem insertionSort_map_setVal (k : String) (b : JVal) :
    ∀ l : List (String × JVal),
    List.insertionSort keyLe (l.map (setVal k b)) =
      (List.insertionSort keyLe l).map (setVal k b) := by
  intro l
  induction l with
  | nil => rfl
  | cons x t ih =>
    simp only [List.map_cons, List.insertionSort]
    rw [ih, orderedInsert_map_setVal]

theorem sortK_context (L R : List (String × JVal)) (k : String) (a b : JVal)
    (hn : ((L ++ (k, a) :: R).map Prod.fst).Nodup) :
    ∃ P Q, List.insertionSort keyLe (L ++ (k, a) :: R) = P ++ (k, a) :: Q ∧
      List.insertionSort keyLe (L ++ (k, b) :: R) = P ++ (k, b) :: Q := by
  have hn2 : (L.map Prod.fst ++ k :: R.map Prod.fst).Nodup := by
    have he : (L ++ (k, a) :: R).map Prod.fst = L.map Prod.fst ++ k :: R.map Prod.fst := by
      simp
    rw [← he]
    exact hn
  have hmid := List.nodup_middle.mp hn2
  have hkLR := (List.nodup_cons.mp hmid).1
  have hkL : k ∉ L.map Prod.fst := fun hc => hkLR (List.mem_append_left _ hc)
  have hkR : k ∉ R.map Prod.fst := fun hc => hkLR (List.mem_append_right _ hc)
  have hmap : L ++ (k, b) :: R = (L ++ (k, a) :: R).map (setVal k b) := by
    rw [List.map_append, List.map_cons, map_setVal_eq_self hkL, map_setVal_eq_self hkR,
      setVal_hit]
  have hmem : (k, a) ∈ List.insertionSort keyLe (L ++ (k, a) :: R) :=
    (List.perm_insertionSort _ _).mem_iff.mpr (by simp)
  obtain ⟨P, Q, hPQ⟩ := List.append_of_mem hmem
  have hns : ((List.insertionSort keyLe (L ++ (k, a) :: R)).map Prod.fst).Nodup :=
    (((List.perm_insertionSort keyLe _).map Prod.fst).nodup_iff).mpr hn
  have hnsP : (P.map Prod.fst ++ k :: Q.map Prod.fst).Nodup := by
    have he : (P ++ (k, a) :: Q).map Prod.fst = P.map Prod.fst ++ k :: Q.map Prod.fst := by
      simp
    rw [← he, ← hPQ]
    exact hns
  have hmidP := List.nodup_middle.mp hnsP
  have hkPQ := (List.nodup_cons.mp hmidP).1
  have hkP : k ∉ P.map Prod.fst := fun hc => hkPQ (List.mem_append_left _ hc)
  have hkQ : k ∉ Q.map Prod.fst := fun hc => hkPQ (List.mem_append_right _ hc)
  refine ⟨P, Q, hPQ, ?_⟩
  rw [hmap, insertionSort_map_setVal, hPQ, List.map_append, List.map_cons,
    map_setVal_eq_self hkP, map_setVal_eq_self hkQ, setVal_hit]

theorem leafchange_emit_sort_ne : ∀ {a b : JVal}, LeafChange a b → wfJ a = true →
    wfJ b = true → dateFree a = true → dateFree b = true →
    emitJ (sortJ a) ≠ emitJ (sortJ b) := by
  intro a b h
  induction h with
  | leaf hsa hsb hne =>
    intro _ _ hda hdb
    rw [scalar_sortJ hsa, scalar_sortJ hsb]
    exact scalar_emit_ne hsa hsb hda hdb hne
  | inArr l r hxy ih =>
    rename_i x y
    intro hwa hwb hda hdb
    simp only [wfJ] at hwa hwb
    simp only [dateFree] at hda hdb
    have hwx : wfJ x = true := wfList_mem hwa (by simp)
    have hwy : wfJ y = true := wfList_mem hwb (by simp)
    have hdx : dateFree x = true := dateFreeList_mem hda (by simp)
    have hdy : dateFree y = true := dateFreeList_mem hdb (by simp)
    simp only [sortJ]
    have hsx : sortList (l ++ x :: r) = sortList l ++ sortJ x :: sortList r := by
      rw [sortList_append]
      simp only [sortList]
    have hsy : sortList (l ++ y :: r) = sortList l ++ sortJ y :: sortList r := by
      rw [sortList_append]
      simp only [sortList]
    rw [hsx, hsy]
    exact emitJ_arr_ne (emitArrRest_context_ne (sortList l) (sortList r)
      (ih hwx hwy hdx hdy))
  | inObj l r k hxy ih =>
    rename_i x y
    intro hwa hwb hda hdb
    simp only [wfJ, Bool.and_eq_true, decide_eq_true_eq] at hwa hwb
    simp only [dateFree] at hda hdb
    have hmx : (k, x) ∈ l ++ (k, x) :: r := List.mem_append_right _ (List.mem_cons_self _ _)
    have hmy : (k, y) ∈ l ++ (k, y) :: r := List.mem_append_right _ (List.mem_cons_self _ _)
    have hwx : wfJ x = true := wfEntries_mem hwa.2 hmx
    have hwy : wfJ y = true := wfEntries_mem hwb.2 hmy
    have hdx : dateFree x = true := dateFreeEntries_mem hda hmx
    have hdy : dateFree y = true := dateFreeEntries_mem hdb hmy
    simp only [sortJ]
    have hsx : sortEntries (l ++ (k, x) :: r) = sortEntries l ++ (k, sortJ x) :: sortEntries r := by
      rw [sortEntries_append]
      simp only [sortEntries]
    have hsy : sortEntries (l ++ (k, y) :: r) = sortEntries l ++ (k, sortJ y) :: sortEntries r := by
      rw [sortEntries_append]
      simp only [sortEntries]
    have hnod : ((sortEntries l ++ (k, sortJ x) :: sortEntries r).map Prod.fst).Nodup := by
      rw [← hsx, sortEntries_map_fst]
      exact hwa.1
    obtain ⟨P, Q, hP1, hP2⟩ :=
      sortK_context (sortEntries l) (sortEntries r) k (sortJ x) (sortJ y) hnod
    rw [hsx, hsy, hP1, hP2]
    exact emitJ_obj_ne (emitObjRest_context_ne P Q k (ih hwx hwy hdx hdy))

theorem reorder_canonicalBytes {d1 d2 : JVal} (h : Reorder d1 d2) (hw : wfJ d1 = true) :
    canonicalBytes d1 = canonicalBytes d2 := by
  unfold canonicalBytes
  rw [reorder_sortJ (reorder_normalizeJ h) (wf_normalizeJ d1 hw)]

theorem leafchange_canonicalBytes_ne {d1 d2 : JVal} (h : LeafChange d1 d2)
    (hw1 : wfJ d1 = true) (hw2 : wfJ d2 = true) (hd1 : dateFree d1 = true)
    (hd2 : dateFree d2 = true) : canonicalBytes d1 ≠ canonicalBytes d2 := by
  unfold canonicalBytes
  rw [normalize_dateFree_id d1 hd1, normalize_dateFree_id d2 hd2]
  exact leafchange_emit_sort_ne h hw1 hw2 hd1 hd2

theorem foldl_word_lt : ∀ (l : List ℕ) (acc : ℕ),
    l.foldl (fun a w => a * 4294967296 + w % 4294967296) acc <
      (acc + 1) * 4294967296 ^ l.length := by
  intro l
  induction l with
  | nil =>
    intro acc
    simp
  | cons w t ih =>
    intro acc
    simp only [List.foldl_cons, List.length_cons]
    have h1 := ih (acc * 4294967296 + w % 4294967296)
    have hw : w % 4294967296 < 4294967296 := Nat.mod_lt _ (by norm_num)
    have h3 : acc * 4294967296 + w % 4294967296 + 1 ≤ (acc + 1) * 4294967296 := by nlinarith
    have h2 : (acc * 4294967296 + w % 4294967296 + 1) * 4294967296 ^ t.length ≤
        (acc + 1) * 4294967296 ^ (t.length + 1) := by
      calc (acc * 4294967296 + w % 4294967296 + 1) * 4294967296 ^ t.length ≤
          ((acc + 1) * 4294967296) * 4294967296 ^ t.length := by gcongr
        _ = (acc + 1) * 4294967296 ^ (t.length + 1) := by ring
    exact lt_of_lt_of_le h1 h2

theorem sha256Nat_lt (m : List ℕ) : sha256Nat m < 2 ^ 256 := by
  unfold sha256Nat
  have hlen : (((chunk16 (toWords (padMsg m))).foldl sha256Block sha256H0 ++
      List.replicate 8 0).take 8).length = 8 := by
    rw [List.length_take, List.length_append, List.length_replicate]
    omega
  have h := foldl_word_lt (((chunk16 (toWords (padMsg m))).foldl sha256Block sha256H0 ++
    List.replicate 8 0).take 8) 0
  rw [hlen] at h
  have he : (0 + 1) * 4294967296 ^ 8 = 2 ^ 256 := by norm_num
  rw [he] at h
  exact h

theorem numDoc_leafchange {m n : ℕ} (h : m ≠ n) : LeafChange (numDoc m) (numDoc n) :=
  LeafChange.inObj [] [] "k" (LeafChange.leaf (Scalar.num (m : ℤ)) (Scalar.num (n : ℤ))
    (by intro hc; injection hc with h2; exact h (by exact_mod_cast h2)))

theorem numDoc_hash_collision : ∃ m n : ℕ, m ≠ n ∧
    canonical_hash (numDoc m) = canonical_hash (numDoc n) := by
  obtain ⟨m, n, hmn, he⟩ := Finite.exists_ne_map_eq_of_infinite
    (fun n : ℕ => (⟨canonical_hash (numDoc n), sha256Nat_lt _⟩ : Fin (2 ^ 256)))
  exact ⟨m, n, hmn, congrArg Fin.val he⟩

theorem numDoc_wf (n : ℕ) : wfJ (numDoc n) = true := by
  simp [numDoc, wfJ, wfEntries]

theorem numDoc_dateFree (n : ℕ) : dateFree (numDoc n) = true := by
  simp [numDoc, dateFree, dateFreeEntries]

theorem date_leaf_same_bytes :
    canonicalBytes (JVal.obj [("d", JVal.date 2024 1 2)]) =
      canonicalBytes (JVal.obj [("d", JVal.str "2024-01-02")]) := by
  unfold canonicalBytes
  have hiso : isoDate 2024 1 2 = "2024-01-02" := by rfl
  have hnorm : normalizeJ (JVal.obj [("d", JVal.date 2024 1 2)]) =
      normalizeJ (JVal.obj [("d", JVal.str "2024-01-02")]) := by
    simp only [normalizeJ, normEntries]
    rw [hiso]
  rw [hnorm]

/-- C8, counterexample: the claim "the hash changes whenever any scalar leaf
value changes" is false.  A date leaf and the string leaf holding its ISO form
are different scalar leaves, yet normalization sends both documents to the
same serialization, so their hashes agree; and even on date-free documents the
256-bit digest cannot separate the infinitely many single-leaf variants of one
document, so two distinct integer leaves collide. -/
theorem C8_counterexample :
    (∃ d1 d2 : JVal, wfJ d1 = true ∧ wfJ d2 = true ∧ LeafChange d1 d2 ∧
      canonical_hash d1 = canonical_hash d2) ∧
    (∃ m n : ℕ, m ≠ n ∧ LeafChange (numDoc m) (numDoc n) ∧
      dateFree (numDoc m) = true ∧ dateFree (numDoc n) = true ∧
      canonical_hash (numDoc m) = canonical_hash (numDoc n)) := by
  constructor
  · refine ⟨JVal.obj [("d", JVal.date 2024 1 2)], JVal.obj [("d", JVal.str "2024-01-02")],
      by simp [wfJ, wfEntries], by simp [wfJ, wfEntries], ?_, ?_⟩
    · exact LeafChange.inObj [] [] "d" (LeafChange.leaf (Scalar.date 2024 1 2)
        (Scalar.str "2024-01-02") (by intro hc; exact JVal.noConfusion hc))
    · unfold canonical_hash
      rw [date_leaf_same_bytes]
  · obtain ⟨m, n, hmn, he⟩ := numDoc_hash_collision
    exact ⟨m, n, hmn, numDoc_leafchange hmn, numDoc_dateFree m, numDoc_dateFree n, he⟩

/-- C8: the canonical scenario hash (canonical_hash of scenario_runner_v0.py)
is invariant under any reordering of object keys: documents equal as maps —
related by Reorder, with the unique keys real Python dicts have — hash
identically.  A changed scalar leaf changes the canonical serialization bytes,
proved for date-free documents; at the level of the 256-bit digest, and for
date leaves (which normalization collapses with their ISO strings), the
change-detection half of the claim fails — see the counterexample. -/
theorem C8_reorder_invariant_leaf_serialization :
    (∀ d1 d2 : JVal, Reorder d1 d2 → wfJ d1 = true →
      canonical_hash d1 = canonical_hash d2) ∧
    (∀ d1 d2 : JVal, LeafChange d1 d2 → wfJ d1 = true → wfJ d2 = true →
      dateFree d1 = true → dateFree d2 = true →
      canonicalBytes d1 ≠ canonicalBytes d2) := by
  constructor
  · intro d1 d2 h hw
    unfold canonical_hash
    rw [reorder_canonicalBytes h hw]
  · intro d1 d2 h hw1 hw2 hd1 hd2
    exact leafchange_canonicalBytes_ne h hw1 hw2 hd1 hd2

theorem C8_reorder_invariant_leaf_serialization_witness :
    canonical_hash (JVal.obj [("a", JVal.num 1), ("b", JVal.null)]) =
      canonical_hash (JVal.obj [("b", JVal.null), ("a", JVal.num 1)]) ∧
    canonicalBytes (numDoc 0) ≠ canonicalBytes (numDoc 1) := by
  have hre : Reorder (JVal.obj [("a", JVal.num 1), ("b", JVal.null)])
      (JVal.obj [("b", JVal.null), ("a", JVal.num 1)]) :=
    Reorder.robj
      (ReorderEntries.cons "a" (Reorder.rnum 1)
        (ReorderEntries.cons "b" Reorder.rnull ReorderEntries.nil))
      (List.Perm.swap ("b", JVal.null) ("a", JVal.num 1) [])
  have hwf : wfJ (JVal.obj [("a", JVal.num 1), ("b", JVal.null)]) = true := by
    simp [wfJ, wfEntries]
  have hlc : LeafChange (numDoc 0) (numDoc 1) := numDoc_leafchange (by norm_num)
  exact ⟨C8_reorder_invariant_leaf_serialization.1 _ _ hre hwf,
    C8_reorder_invariant_leaf_serialization.2 _ _ hlc (numDoc_wf 0) (numDoc_wf 1)
      (numDoc_dateFree 0) (numDoc_dateFree 1)⟩

end Fieldnet
